import Mathlib

/-!
Verification development for the vectorctl migration engine.

The definitions below are a shallow embedding of the repository's core:
the revision graph (`src/migration/src/revision.rs`), the two migration
drivers (`src/vectorctl-migration/src/migrator.rs` and
`src/migration/src/migrator.rs`), the qdrant ledger
(`src/backend/src/qdrant.rs`) and the typed resource map
(`src/vectorctl-migration/src/context.rs`).  Machine integers are
modelled as `Nat`, UUIDs as `Nat` handles (driver side) or as validated
strings (ledger side), and fallible code returns `Option`/`Except`.
-/

namespace Vectorctl


/-- Status of a migration entry, mirroring `MigrationStatus` in
`migrator.rs`. -/
inductive MigrationStatus where
  | Pending
  | Applied
deriving DecidableEq, Repr, Inhabited

/-- Compile-time metadata and (modelled) runtime behaviour of one user
migration.  `name`, `revision`, `down_revision` mirror the `MigrationMeta`
contract (`name()` and `revision()` returning `Revision { revision,
down_revision, .. }`).  `upOk`/`downOk` model whether the user-authored
`up(ctx)`/`down(ctx)` call returns `Ok`; `upPolls` models how many times
the `up` future must be polled before it completes (used only for the
scheduling analysis). -/
structure MigDecl where
  name : String
  revision : String
  down_revision : Option String
  upOk : Bool := true
  downOk : Bool := true
  upPolls : Nat := 1
deriving DecidableEq, Repr, Inhabited

/-- One entry of the revision graph, mirroring `Migration { runner, id,
status }` in `vectorctl-migration/src/migrator.rs`. -/
structure Migration where
  runner : MigDecl
  id : Option Nat
  status : MigrationStatus
deriving DecidableEq, Repr, Inhabited

/-- Arena node, mirroring `Node { revision, children, migration, parent }`
in `revision.rs`.  `children` is the tinyvec `ArrayVec<[usize; 4]>`
(capacity 4), kept here as a plain list whose length is bounded by the
linking pass. -/
structure Node where
  revision : String
  children : List Nat
  migration : Migration
  parent : Option Nat
deriving DecidableEq, Repr

/-- Failure modes of graph construction: `noHead` is
`RevisionGraphError::NotFound("head")`; `capacity` models the panic of
`ArrayVec::push` when a node would receive a fifth child. -/
inductive BuildError where
  | noHead
  | capacity
deriving DecidableEq, Repr

/-- Revision graph, mirroring `RevisionGraph { nodes, index, head_ix }`.
The `index` hash map is recomputed from the node list on demand (it is
built from the same revisions and never mutated in the source). -/
structure RevisionGraph where
  nodes : List Node
  head_ix : Nat
deriving DecidableEq, Repr

/-- Last index of `rev` in `revs`, mirroring the pass-1 construction of
the `FxHashMap` index: `index.insert(revision, ix)` is executed for
`ix = 0, 1, ...`, so a duplicated revision keeps the largest index. -/
def lastIdxOf (revs : List String) (rev : String) : Option Nat :=
  (List.range revs.length).foldl
    (fun acc j => if revs[j]? = some rev then some j else acc) none

/-- Pass 1 of `RevisionGraph::try_from`: allocate one node per migration
with no parent and no children. -/
def initNodes (migs : List Migration) : List Node :=
  migs.map (fun m =>
    { revision := m.runner.revision
      children := []
      migration := m
      parent := none })

/-- Index lookup used by pass 2: the declared parent revision of entry
`ix`, resolved through the index map.  `none` when the entry is the root
(`down_revision == None`) or when the declared parent is not a key of the
index (the source then links nothing for this entry). -/
def resolveParent (migs : List Migration) (ix : Nat) : Option Nat :=
  (migs[ix]?).bind (fun m =>
    m.runner.down_revision.bind (fun r =>
      lastIdxOf (migs.map (fun mg => mg.runner.revision)) r))

/-- Replace the element at position `i` (no-op when out of range). -/
def modifyAt (l : List Node) (i : Nat) (f : Node → Node) : List Node :=
  ((l[i]?).map (fun a => l.set i (f a))).getD l

/-- One step of pass 2 of `RevisionGraph::try_from`: if entry `ix`
declares a parent that resolves in the index, set `nodes[ix].parent` and
push `ix` onto `nodes[p_ix].children`.  The push fails (`capacity`) when
the parent already has four children, as `ArrayVec<[usize; 4]>::push`
panics on overflow.  Note the source reads `down_revision` from the node
arena; node metadata is never modified by linking, so it is read from the
immutable migration list here. -/
def linkStep (migs : List Migration) (nodes : List Node) (ix : Nat) :
    Except BuildError (List Node) :=
  (resolveParent migs ix).elim (.ok nodes) (fun pIx =>
    ((modifyAt nodes ix (fun n => { n with parent := some pIx }))[pIx]?).elim
      (.ok (modifyAt nodes ix (fun n => { n with parent := some pIx })))
      (fun p =>
        if p.children.length ≥ 4 then .error .capacity
        else .ok
          ((modifyAt nodes ix (fun n => { n with parent := some pIx })).set pIx
            { p with children := p.children ++ [ix] })))

/-- Pass 2 of `RevisionGraph::try_from`, over all entries in order. -/
def linkAll (migs : List Migration) : Except BuildError (List Node) :=
  (List.range migs.length).foldlM (linkStep migs) (initNodes migs)

/-- Full `RevisionGraph::try_from`: link the arena, then find the first
node with an empty child list (`position(|n| n.children.is_empty())`); its
absence is `NotFound("head")`. -/
def tryFrom (migs : List Migration) : Except BuildError RevisionGraph :=
  (linkAll migs).bind (fun nodes =>
    (nodes.findIdx? (fun n => n.children.isEmpty)).elim (.error .noHead)
      (fun hix => .ok { nodes := nodes, head_ix := hix }))

namespace RevisionGraph

/-- Index map lookup `self.index.get(rev)` (`RevisionGraph::ix`). -/
def ix (g : RevisionGraph) (rev : String) : Option Nat :=
  lastIdxOf (g.nodes.map (fun n => n.revision)) rev

/-- First child of a node (`RevisionGraph::child_ix`,
`children.first()`). -/
def childIx (g : RevisionGraph) (i : Nat) : Option Nat :=
  (g.nodes[i]?).bind (fun n => n.children.head?)

/-- Parent of a node (`RevisionGraph::parent_ix`). -/
def parentIx (g : RevisionGraph) (i : Nat) : Option Nat :=
  (g.nodes[i]?).bind (fun n => n.parent)

/-- Revision of the head node (`RevisionGraph::head`); `none` models the
out-of-bounds panic, impossible for graphs produced by `tryFrom`. -/
def headRev (g : RevisionGraph) : Option String :=
  (g.nodes[g.head_ix]?).map (fun n => n.revision)

/-- Revision of node 0 (`RevisionGraph::queue`); `none` models the panic
on an empty arena, impossible for graphs produced by `tryFrom`. -/
def queueRev (g : RevisionGraph) : Option String :=
  (g.nodes[0]?).map (fun n => n.revision)

end RevisionGraph

/-- Forward successor walk: the index stream
`successors(start_ix, child_ix).take_while(|ix| ix != target_ix)`.
The `fuel` argument makes the recursion total; `none` models an infinite
loop of the Rust iterator (only possible on a cyclic child chain that
avoids the target), and never occurs with `fuel ≥ nodes.length + 1` on a
terminating walk, since a terminating walk never revisits an index. -/
def fwdWalk (g : RevisionGraph) (target : Nat) :
    Nat → Option Nat → Option (List Nat)
  | _, none => some []
  | 0, some i => if i = target then some [] else none
  | fuel + 1, some i =>
    if i = target then some []
    else (fwdWalk g target fuel (g.childIx i)).map (fun l => i :: l)

/-- Backward predecessor walk:
`successors(start_ix, parent_ix).take_while(|ix| Some(ix) != stop_ix)`,
with the same fuel discipline as `fwdWalk`. -/
def bwdWalk (g : RevisionGraph) (stopIx : Option Nat) :
    Nat → Option Nat → Option (List Nat)
  | _, none => some []
  | 0, some i => if some i = stopIx then some [] else none
  | fuel + 1, some i =>
    if some i = stopIx then some []
    else (bwdWalk g stopIx fuel (g.parentIx i)).map (fun l => i :: l)

namespace RevisionGraph

/-- `RevisionGraph::forward_path`.  Outer `none` models the
`expect("target revision must exist")` panic on an unknown target (or a
diverging walk); otherwise the walked prefix is chained with the target
index and mapped to nodes. -/
def forward_path (g : RevisionGraph) (current : Option String)
    (target : String) : Option (List Node) :=
  (g.ix target).elim none (fun tIx =>
    (fwdWalk g tIx (g.nodes.length + 1) (current.bind g.ix)).map
      (fun ixs => (ixs ++ [tIx]).filterMap (fun i => g.nodes[i]?)))

/-- `RevisionGraph::backward_path`.  Outer `none` models a diverging
walk only; an unknown `stop` resolves to `stop_ix = None` exactly as in
the source. -/
def backward_path (g : RevisionGraph) (current stop : Option String) :
    Option (List Node) :=
  (bwdWalk g (stop.bind g.ix) (g.nodes.length + 1) (current.bind g.ix)).map
    (fun ixs => ixs.filterMap (fun i => g.nodes[i]?))

/-- `RevisionGraph::get`: persistence handle and migration for a known
revision. -/
def get (g : RevisionGraph) (rev : String) : Option (Option Nat × MigDecl) :=
  (g.ix rev).bind (fun i =>
    (g.nodes[i]?).map (fun n => (n.migration.id, n.migration.runner)))

end RevisionGraph

/-! ### Closed form of the linking pass -/

/-- Migration at position `j` (positions used below are always in
range). -/
def migAt (migs : List Migration) (j : Nat) : Migration :=
  (migs[j]?).getD default

/-- Indices among `0..k-1` whose declared parent resolves to `j`: the
children accumulated for node `j` by the first `k` linking steps. -/
def childList (migs : List Migration) (k j : Nat) : List Nat :=
  (List.range k).filter (fun i => resolveParent migs i == some j)

/-- Total number of entries resolving to parent `p`. -/
def resolveCount (migs : List Migration) (p : Nat) : Nat :=
  (childList migs migs.length p).length

/-- Arena state after the first `k` linking steps, in closed form. -/
def linkedUpTo (migs : List Migration) (k : Nat) : List Node :=
  (List.range migs.length).map (fun j =>
    { revision := (migAt migs j).runner.revision
      migration := migAt migs j
      parent := if j < k then resolveParent migs j else none
      children := childList migs k j })

/-- Fully linked arena in closed form. -/
def linkedNodes (migs : List Migration) : List Node :=
  linkedUpTo migs migs.length

/-- Node shape at one position of the partially linked arena. -/
def nodeAt (migs : List Migration) (k j : Nat) : Node :=
  { revision := (migAt migs j).runner.revision
    migration := migAt migs j
    parent := if j < k then resolveParent migs j else none
    children := childList migs k j }

/-- Number of nodes without a parent (roots). -/
def rootCount (nodes : List Node) : Nat :=
  (nodes.filter (fun n => n.parent.isNone)).length

/-- Number of nodes without children (heads). -/
def headCount (nodes : List Node) : Nat :=
  (nodes.filter (fun n => n.children.isEmpty)).length

/-- Shorthand used by the concrete scenarios: a pending migration with
the given revision and parent revision, named after its revision. -/
def mkPending (r : String) (d : Option String) : Migration :=
  { runner := { name := r, revision := r, down_revision := d }
    id := none
    status := .Pending }

/-- Revision string at chain position `q` (the default is never reached
for in-range positions). -/
def rget (rs : List String) (q : Nat) : String := (rs[q]?).getD ""

/-- The declared migration list `migs` is the linear chain over revisions
`rs` (chain position `q` has revision `rs[q]` and parent `rs[q-1]`),
declared in insertion order `π`: slot `j` of the declaration list holds
chain position `π j`, and `σ` inverts `π`. -/
structure ChainPerm (rs : List String) (π σ : Nat → Nat)
    (migs : List Migration) : Prop where
  len : migs.length = rs.length
  rev : ∀ j, j < rs.length → (migAt migs j).runner.revision = rget rs (π j)
  down : ∀ j, j < rs.length → (migAt migs j).runner.down_revision
      = (if π j = 0 then none else some (rget rs (π j - 1)))
  πlt : ∀ j, j < rs.length → π j < rs.length
  σlt : ∀ q, q < rs.length → σ q < rs.length
  πσ : ∀ q, q < rs.length → π (σ q) = q
  σπ : ∀ j, j < rs.length → σ (π j) = j
  nodup : rs.Nodup

/-- Chain a ← b ← c declared in the insertion order [b, c, a]: a
nontrivial insertion order for the roundtrip witness. -/
def chainPermuted : List Migration :=
  [mkPending "b" (some "a"), mkPending "c" (some "b"), mkPending "a" none]

/-- Two declared migrations, both roots (no parent), hence also two
heads. -/
def twoRoots : List Migration := [mkPending "a" none, mkPending "b" none]

/-- A single root migration. -/
def singleA : List Migration := [mkPending "a" none]

/-! ### Drivers -/

/-- Ledger mutations issued by a driver leg. -/
inductive LedgerOp where
  | insertMany (names : List String)
  | deleteMany (ids : List Nat)
deriving DecidableEq, Repr

/-- State of the `_qdrant_migration` collection: the applied records
(name, uuid handle) in insertion order, plus a counter supplying fresh
UUID handles (modelling `Uuid::now_v7()`). -/
structure LedgerState where
  entries : List (String × Nat)
  next : Nat
deriving DecidableEq, Repr

/-- Lookup in the retrieved `HashMap<MigrationName, Uuid>`: when
duplicate names exist the scroll's later record overwrites the earlier
one, so the last matching entry wins. -/
def lookupName (entries : List (String × Nat)) (name : String) : Option Nat :=
  ((entries.filter (fun e => e.1 == name)).getLast?).map (fun e => e.2)

/-- `Ledger::insert_many`: one record per name, fresh UUID each. -/
def LedgerState.insertMany (led : LedgerState) (names : List String) :
    LedgerState :=
  { entries := led.entries ++ names.enum.map (fun p => (p.2, led.next + p.1))
    next := led.next + names.length }

/-- `Ledger::delete_many`: remove the records addressed by the given
handles. -/
def LedgerState.deleteMany (led : LedgerState) (ids : List Nat) :
    LedgerState :=
  { led with entries := led.entries.filter (fun e => decide (¬ e.2 ∈ ids)) }

/-- Driver error kinds used by the embedded legs. -/
inductive MigErr where
  | graph (e : BuildError)
  | notFound (s : String)
  | userUp (name : String)
  | userDown (name : String)
  | panic
deriving DecidableEq, Repr

/-- `MigratorTrait::migrations_with_status`: annotate each declared
migration with its ledger handle (by name) and the derived status. -/
def migrationsWithStatus (decls : List MigDecl) (led : LedgerState) :
    List Migration :=
  decls.map (fun d =>
    { runner := d
      id := lookupName led.entries d.name
      status := if (lookupName led.entries d.name).isSome then .Applied
                else .Pending })

/-- The process-wide `static GRAPH: OnceCell<RevisionGraph>`:
`get_or_try_init` returns the cached graph when present, otherwise builds
one and caches it; a build error leaves the cell empty. -/
def getOrInitGraph (cell : Option RevisionGraph) (migs : List Migration) :
    Except BuildError (RevisionGraph × Option RevisionGraph) :=
  match cell with
  | some g => .ok (g, some g)
  | none => (tryFrom migs).map (fun g => (g, some g))

/-- Per-invocation driver state: the memoized graph cell and the ledger
collection contents. -/
structure DriverState where
  graphCell : Option RevisionGraph
  ledger : LedgerState
deriving DecidableEq, Repr

instance {ε α} [DecidableEq ε] [DecidableEq α] : DecidableEq (Except ε α) :=
  fun a b =>
    match a, b with
    | .error e1, .error e2 =>
      if h : e1 = e2 then isTrue (by rw [h])
      else isFalse (fun hc => h (Except.error.inj hc))
    | .ok a1, .ok a2 =>
      if h : a1 = a2 then isTrue (by rw [h])
      else isFalse (fun hc => h (Except.ok.inj hc))
    | .error _, .ok _ => isFalse (fun hc => Except.noConfusion hc)
    | .ok _, .error _ => isFalse (fun hc => Except.noConfusion hc)

/-- Result of one driver leg: the outcome, the state afterwards, and the
ledger mutations performed (in order). -/
structure ExecOut where
  result : Except MigErr Unit
  state : DriverState
  ops : List LedgerOp
deriving DecidableEq, Repr

/-- Case analysis on `Except`, used to keep driver definitions in plain
term form. -/
def exceptElim {ε α β} (x : Except ε α) (f : ε → β) (g : α → β) : β :=
  match x with
  | .error e => f e
  | .ok a => g a

/-- `collect::<Result<Vec<_>, _>>()` over the awaited results: the first
error short-circuits. -/
def sequenceE {ε α} : List (Except ε α) → Except ε (List α)
  | [] => .ok []
  | x :: xs => x.bind (fun a => (sequenceE xs).map (fun l => a :: l))

/-- One path entry of the legacy Up leg: `graph.get(&revision)` then the
user `up(ctx)` call, yielding the migration name on success. -/
def runUpEntry (g : RevisionGraph) (n : Node) : Except MigErr String :=
  (g.get n.revision).elim (.error (.notFound n.revision))
    (fun pr => if pr.2.upOk then .ok pr.2.name else .error (.userUp pr.2.name))

/-- One resolved entry of the legacy Down leg: an Applied entry must have
a handle (`Graph(NotFound)` otherwise), then the user `down(ctx)` call,
yielding the handle on success. -/
def runDownEntry (pr : Option Nat × MigDecl) : Except MigErr Nat :=
  pr.1.elim (.error (.notFound pr.2.name))
    (fun id => if pr.2.downOk then .ok id else .error (.userDown pr.2.name))

/-- Legacy driver `exec_up` (`src/migration/src/migrator.rs`): retrieve
the applied map, keep Pending migrations, build or reuse the memoized
graph from them, walk `forward_path(from ?? queue, to ?? head)`, run all
user ups, and on full success insert the collected names (once, at the
end, only when non-empty). -/
def execUp (decls : List MigDecl) (from? to? : Option String)
    (s : DriverState) : ExecOut :=
  exceptElim
    (getOrInitGraph s.graphCell
      ((migrationsWithStatus decls s.ledger).filter
        (fun m => m.status == MigrationStatus.Pending)))
    (fun e => ⟨.error (.graph e), s, []⟩)
    (fun pr =>
      ((pr.1.queueRev).bind (fun qu => (pr.1.headRev).map
          (fun hd => (qu, hd)))).elim
        ⟨.error .panic, ⟨pr.2, s.ledger⟩, []⟩
        (fun qh =>
          (pr.1.forward_path (some (from?.getD qh.1)) (to?.getD qh.2)).elim
            ⟨.error .panic, ⟨pr.2, s.ledger⟩, []⟩
            (fun path =>
              exceptElim (sequenceE (path.map (runUpEntry pr.1)))
                (fun e => ⟨.error e, ⟨pr.2, s.ledger⟩, []⟩)
                (fun names =>
                  if names.isEmpty then ⟨.ok (), ⟨pr.2, s.ledger⟩, []⟩
                  else ⟨.ok (), ⟨pr.2, s.ledger.insertMany names⟩,
                    [.insertMany names]⟩))))

/-- Legacy driver `exec_down`: keep Applied migrations, build or reuse
the memoized graph from them, walk `backward_path(head, to)`, resolve the
entries through `graph.get`, run all user downs, and on full success
delete the collected handles (once, at the end, only when non-empty). -/
def execDown (decls : List MigDecl) (to? : Option String)
    (s : DriverState) : ExecOut :=
  exceptElim
    (getOrInitGraph s.graphCell
      ((migrationsWithStatus decls s.ledger).filter
        (fun m => m.status == MigrationStatus.Applied)))
    (fun e => ⟨.error (.graph e), s, []⟩)
    (fun pr =>
      (pr.1.headRev).elim ⟨.error .panic, ⟨pr.2, s.ledger⟩, []⟩
        (fun hd =>
          (pr.1.backward_path (some hd) to?).elim
            ⟨.error .panic, ⟨pr.2, s.ledger⟩, []⟩
            (fun path =>
              exceptElim
                (sequenceE
                  ((path.filterMap (fun n => pr.1.get n.revision)).map
                    runDownEntry))
                (fun e => ⟨.error e, ⟨pr.2, s.ledger⟩, []⟩)
                (fun ids =>
                  if ids.isEmpty then ⟨.ok (), ⟨pr.2, s.ledger⟩, []⟩
                  else ⟨.ok (), ⟨pr.2, s.ledger.deleteMany ids⟩,
                    [.deleteMany ids]⟩))))

/-- Legacy `MigratorTrait::refresh`: `exec_down(None)` then
`exec_up(None, None)`, threading the process state (including the
memoized graph cell) and concatenating the ledger mutations. -/
def refreshRun (decls : List MigDecl) (s : DriverState) : ExecOut :=
  exceptElim (execDown decls none s).result
    (fun _ => execDown decls none s)
    (fun _ =>
      ⟨(execUp decls none none (execDown decls none s).state).result,
        (execUp decls none none (execDown decls none s).state).state,
        (execDown decls none s).ops
          ++ (execUp decls none none (execDown decls none s).state).ops⟩)

/-- A fresh process against an empty ledger. -/
def emptyState : DriverState := ⟨none, ⟨[], 0⟩⟩

/-- A fresh `up()` run: empty graph cell, empty ledger. -/
def freshUpRun (decls : List MigDecl) : ExecOut :=
  execUp decls none none emptyState

/-- Names present in the ledger (what `retrieve` reports, as a set). -/
def appliedNames (s : DriverState) : List String :=
  s.ledger.entries.map (fun e => e.1)

/-- Direction enum of the vectorctl driver. -/
inductive Direction where
  | Up
  | Down
  | Refresh
deriving DecidableEq, Repr

/-- Traversal path computed by the vectorctl driver's `exec`
(`src/vectorctl-migration/src/migrator.rs`, step 4): note that Up passes
`from ?? head` and `to ?? queue` to `forward_path`, and Down starts
`backward_path` from `queue`. -/
def vexecPath (g : RevisionGraph) (dir : Direction)
    (from? to? : Option String) : Option (List Node) :=
  match dir with
  | .Up =>
    ((g.headRev).bind (fun hd => (g.queueRev).map (fun qu => (hd, qu)))).elim
      none
      (fun hq => g.forward_path (some (from?.getD hq.1)) (to?.getD hq.2))
  | .Down =>
    (g.queueRev).elim none (fun qu => g.backward_path (some qu) to?)
  | .Refresh =>
    (g.queueRev).elim none (fun qu => g.backward_path (some qu) none)

/-- Traversal path computed by the legacy driver's `exec_up`:
`forward_path(from ?? queue, to ?? head)`. -/
def legacyUpPath (g : RevisionGraph) (from? to? : Option String) :
    Option (List Node) :=
  ((g.queueRev).bind (fun qu => (g.headRev).map (fun hd => (qu, hd)))).elim
    none
    (fun qh => g.forward_path (some (from?.getD qh.1)) (to?.getD qh.2))

/-- Traversal path computed by the legacy driver's `exec_down`:
`backward_path(head, to)`. -/
def legacyDownPath (g : RevisionGraph) (to? : Option String) :
    Option (List Node) :=
  (g.headRev).elim none (fun hd => g.backward_path (some hd) to?)

/-- The vectorctl `run_up` leg: `try_join_all` over the user ups, then a
single `insert_many` when every up succeeded and some name was
collected. -/
def runUpLeg (items : List (Option Nat × MigDecl)) (led : LedgerState) :
    Except MigErr LedgerState × List LedgerOp :=
  exceptElim
    (sequenceE (items.map (fun it =>
      if it.2.upOk then Except.ok it.2.name
      else Except.error (MigErr.userUp it.2.name))))
    (fun e => (.error e, []))
    (fun names =>
      if names.isEmpty then (.ok led, [])
      else (.ok (led.insertMany names), [.insertMany names]))

/-- The vectorctl `run_down` leg: `try_join_all` over the user downs
(entries without a handle fail with `Graph(NotFound)`), then a single
`delete_many` when everything succeeded and some handle was collected. -/
def runDownLeg (items : List (Option Nat × MigDecl)) (led : LedgerState) :
    Except MigErr LedgerState × List LedgerOp :=
  exceptElim
    (sequenceE (items.map (fun it =>
      it.1.elim (Except.error (MigErr.notFound it.2.name))
        (fun id => if it.2.downOk then Except.ok id
                   else Except.error (MigErr.userDown it.2.name)))))
    (fun e => (.error e, []))
    (fun ids =>
      if ids.isEmpty then (.ok led, [])
      else (.ok (led.deleteMany ids), [.deleteMany ids]))

/-- The chain a ← b ← c declared in root-first order. -/
def chainOrdered : List Migration :=
  [mkPending "a" none, mkPending "b" (some "a"), mkPending "c" (some "b")]

/-- The declarations of the chain a ← b. -/
def declsAB : List MigDecl :=
  [{ name := "a", revision := "a", down_revision := none },
   { name := "b", revision := "b", down_revision := some "a" }]

/-- Ledger with only a applied (handle 0). -/
def stateOnlyA : DriverState := ⟨none, ⟨[("a", 0)], 1⟩⟩

/-- Ledger with a and b applied (handles 0 and 1). -/
def stateAB : DriverState := ⟨none, ⟨[("a", 0), ("b", 1)], 2⟩⟩

/-! ### Scheduling of user calls within a leg -/

/-- Cooperative polling model of `futures::future::join_all` /
`try_join_all` as used by both drivers: every future of the leg is handed
to the combinator at once, and each poll of the joined future polls each
not-yet-completed inner future once, in the order supplied.  `steps`
gives, per future, how many polls it needs; the trace event `(i, r)`
records the r-th poll of future `i`. -/
def joinAllTrace (steps : List Nat) : List (Nat × Nat) :=
  (List.range (steps.foldr max 0)).flatMap (fun r =>
    (List.range steps.length).filterMap (fun i =>
      if r < (steps[i]?).getD 0 then some (i, r) else none))

/-- The schedule the spec describes: each future is polled to completion
before the next future's first poll. -/
def seqTrace (steps : List Nat) : List (Nat × Nat) :=
  (List.range steps.length).flatMap (fun i =>
    (List.range ((steps[i]?).getD 0)).map (fun r => (i, r)))

/-- Poll trace of the Up leg: `run_up` maps the whole iterator of user
up futures into a single `try_join_all` call. -/
def runUpPollTrace (migs : List MigDecl) : List (Nat × Nat) :=
  joinAllTrace (migs.map (fun m => m.upPolls))

/-- Poll trace the spec's sequential-ordering guarantee would produce. -/
def seqUpPollTrace (migs : List MigDecl) : List (Nat × Nat) :=
  seqTrace (migs.map (fun m => m.upPolls))

/-- Two chained migrations whose up futures each need two polls. -/
def twoSlowUps : List MigDecl :=
  [{ name := "a", revision := "a", down_revision := none, upPolls := 2 },
   { name := "b", revision := "b", down_revision := some "a", upPolls := 2 }]

/-! ### Ledger retrieve -/

/-- Qdrant point identifier variants (`point_id_options`). -/
inductive PointIdOptions where
  | Num (n : Nat)
  | Uuid (s : String)
deriving DecidableEq, Repr

/-- Payload values as far as the ledger payload decoding observes them. -/
inductive QValue where
  | vStr (s : String)
  | vInt (n : Int)
  | vOther
deriving DecidableEq, Repr

/-- One record returned by `scroll` over the ledger collection. -/
structure ScrollRecord where
  id : Option PointIdOptions
  payload : List (String × QValue)
deriving DecidableEq, Repr

def isHexDigit (ch : Char) : Bool :=
  ch.isDigit || ('a' ≤ ch && ch ≤ 'f') || ('A' ≤ ch && ch ≤ 'F')

/-- Modelled from `Uuid::try_parse`: accepts the canonical hyphenated
8-4-4-4-12 form (the library's other accepted spellings are irrelevant to
the claims, which only distinguish parse success from failure). -/
def uuidTryParse (s : String) : Except String String :=
  if s.data.length = 36
      ∧ (∀ p : Nat × Char, p ∈ s.data.enum →
          (p.1 = 8 ∨ p.1 = 13 ∨ p.1 = 18 ∨ p.1 = 23) → p.2 = '-')
      ∧ (∀ p : Nat × Char, p ∈ s.data.enum →
          ¬ (p.1 = 8 ∨ p.1 = 13 ∨ p.1 = 18 ∨ p.1 = 23) → isHexDigit p.2)
  then .ok s else .error s

def lookupField (p : List (String × QValue)) (k : String) : Option QValue :=
  (p.find? (fun e => e.1 == k)).map (fun e => e.2)

/-- Modelled from serde: a simplified well-formedness check for the
RFC3339 timestamp accepted when decoding `applied_at`. -/
def isRfc3339ish (s : String) : Bool :=
  decide (19 ≤ s.data.length
    ∧ (∀ p : Nat × Char, p ∈ s.data.enum →
        (p.1 < 4 ∨ p.1 = 5 ∨ p.1 = 6 ∨ p.1 = 8 ∨ p.1 = 9 ∨ p.1 = 11
          ∨ p.1 = 12 ∨ p.1 = 14 ∨ p.1 = 15 ∨ p.1 = 17 ∨ p.1 = 18)
          → p.2.isDigit)
    ∧ (∀ p : Nat × Char, p ∈ s.data.enum → (p.1 = 4 ∨ p.1 = 7) → p.2 = '-')
    ∧ (∀ p : Nat × Char, p ∈ s.data.enum → p.1 = 10 → p.2 = 'T')
    ∧ (∀ p : Nat × Char, p ∈ s.data.enum → (p.1 = 13 ∨ p.1 = 16) → p.2 = ':'))

/-- Modelled from serde: `MigrationPayload::try_from` succeeds exactly
when the payload map holds a string `name` and a timestamp-shaped string
`applied_at`. -/
def decodePayload (p : List (String × QValue)) : Option (String × String) :=
  (lookupField p "name").bind (fun nv =>
    (lookupField p "applied_at").bind (fun av =>
      match nv, av with
      | .vStr nm, .vStr ts => if isRfc3339ish ts then some (nm, ts) else none
      | _, _ => none))

/-- The `filter_map` closure of `Ledger::retrieve`: missing ids, numeric
ids, unparseable UUIDs (the constructed `MigrationError::Uuid` is
discarded by `.ok()?`) and undecodable payloads all yield `None`;
otherwise the pair (name, uuid) is produced. -/
def recordDecode (r : ScrollRecord) : Option (String × String) :=
  (r.id).bind (fun pid =>
    ((match pid with
      | .Num _ => none
      | .Uuid s => (uuidTryParse s).toOption : Option String)).bind
      (fun uuid =>
        (decodePayload r.payload).map (fun p => (p.1, uuid))))

/-- Collecting the decoded pairs into the `HashMap`: a later record with
the same name overwrites the earlier one. -/
def ledgerCollect (l : List (String × String)) : List (String × String) :=
  l.foldl (fun m kv => (kv.1, kv.2) :: m.filter (fun e => !(e.1 == kv.1))) []

/-- `Ledger::retrieve` applied to a successful scroll result. -/
def ledgerRetrieve (records : List ScrollRecord) :
    Except String (List (String × String)) :=
  .ok (ledgerCollect (records.filterMap recordDecode))

/-- A valid ledger record: canonical UUID id, decodable payload. -/
def goodRecord : ScrollRecord :=
  { id := some (.Uuid "0195a8f0-1234-7abc-8def-0123456789ab")
    payload := [("name", .vStr "a"),
                ("applied_at", .vStr "2025-01-01T00:00:00Z")] }

/-- A record with a numeric point id (ignored by retrieve). -/
def numRecord : ScrollRecord :=
  { id := some (.Num 7)
    payload := [("name", .vStr "x"),
                ("applied_at", .vStr "2025-01-01T00:00:00Z")] }

/-! ### Typed resource map -/

/-- A Rust iterator adaptor `Map` as a value: constructing it performs no
work; only consuming it would. -/
structure LazyMapIter (α β : Type) where
  base : List α
  f : α → β

/-- The `Resource` map: `TypeId` keys (as `Nat`) to boxed values (as
`Nat`). -/
structure ResourceMap where
  entries : List (Nat × Nat)
deriving DecidableEq, Repr

/-- `Resource::insert`: replaces any previous entry of the same type. -/
def ResourceMap.insert (m : ResourceMap) (tid v : Nat) : ResourceMap :=
  ⟨(tid, v) :: m.entries.filter (fun e => !(e.1 == tid))⟩

/-- `Resource::insert_many`: the body is
`let _ = resources.into_iter().map(|resource| self.insert(resource));` —
it builds the lazy `map` adaptor and binds it to `_` without ever
iterating it, so no `insert` runs and the map is returned unchanged.  All
resources of one call share a single `TypeId`, here `tid`. -/
def ResourceMap.insertMany (m : ResourceMap) (tid : Nat) (rs : List Nat) :
    ResourceMap :=
  let _adaptor : LazyMapIter Nat (Nat × Nat) := ⟨rs, fun r => (tid, r)⟩
  m

/-- What the iterator would have done had it been consumed: insert each
resource in order. -/
def ResourceMap.insertManyConsumed (m : ResourceMap) (tid : Nat)
    (rs : List Nat) : ResourceMap :=
  rs.foldl (fun acc r => acc.insert tid r) m

/-- `Context::resource_opt::<T>()` (and hence `resource::<T>()`): lookup
by type identity. -/
def ResourceMap.resourceOpt (m : ResourceMap) (tid : Nat) : Option Nat :=
  (m.entries.find? (fun e => e.1 == tid)).map (fun e => e.2)

/-- The `Context` of `vectorctl-migration/src/context.rs`: one backend
and the resource map. -/
structure Context where
  backend : Nat
  resources : ResourceMap
deriving DecidableEq, Repr

/-- `Context::insert_resources` delegates to `Resource::insert_many`. -/
def Context.insert_resources (ctx : Context) (tid : Nat) (rs : List Nat) :
    Context :=
  { ctx with resources := ctx.resources.insertMany tid rs }

/-! ### Refresh on a fully applied chain -/

/-- Declarations of the canonical chain over `rs`, root first: position
`q` has revision `rs[q]` and parent `rs[q-1]`; names coincide with
revisions. -/
def chainDecls (rs : List String) : List MigDecl :=
  (List.range rs.length).map (fun q =>
    { name := rget rs q
      revision := rget rs q
      down_revision := if q = 0 then none else some (rget rs (q - 1)) })

/-- Ledger in which every chain migration is applied, handle = chain
position. -/
def ledgerFull (rs : List String) : LedgerState :=
  ⟨rs.enum.map (fun p => (p.2, p.1)), rs.length⟩

/-- Reverse index walk of the Down leg. -/
def downIxs (rs : List String) : List Nat :=
  (List.range rs.length).map (fun t => rs.length - 1 - t)


theorem lastIdxOf_aux (revs : List String) (r : String) (n : Nat) :
    ((List.range n).foldl
        (fun acc j => if revs[j]? = some r then some j else acc) none = none
      ∧ ∀ j, j < n → revs[j]? ≠ some r)
    ∨ (∃ j, j < n ∧
        (List.range n).foldl
          (fun acc j => if revs[j]? = some r then some j else acc) none = some j
        ∧ revs[j]? = some r ∧ ∀ j', j < j' → j' < n → revs[j']? ≠ some r) := by
  induction n with
  | zero => left; simp
  | succ n ih =>
    rw [List.range_succ, List.foldl_append]
    by_cases h : revs[n]? = some r
    · right
      rcases ih with ⟨he, _⟩ | ⟨j, _, he, _, _⟩ <;>
        exact ⟨n, Nat.lt_succ_self n, by simp [he, h], h, fun j' h1 h2 => absurd h1 (by omega)⟩
    · rcases ih with ⟨he, hnone⟩ | ⟨j, hj, he, hjr, hmax⟩
      · left
        refine ⟨by simp [he, h], fun j hjn => ?_⟩
        rcases Nat.lt_succ_iff_lt_or_eq.mp hjn with h' | h'
        · exact hnone j h'
        · simpa [h'] using h
      · right
        refine ⟨j, Nat.lt_succ_of_lt hj, by simp [he, h], hjr, fun j' h1 h2 => ?_⟩
        rcases Nat.lt_succ_iff_lt_or_eq.mp h2 with h' | h'
        · exact hmax j' h1 h'
        · simpa [h'] using h

theorem lastIdxOf_mem {revs : List String} {r : String} {j : Nat}
    (h : lastIdxOf revs r = some j) : j < revs.length ∧ revs[j]? = some r := by
  rcases lastIdxOf_aux revs r revs.length with ⟨he, _⟩ | ⟨j', hj', he, hr, _⟩
  · rw [lastIdxOf] at h; rw [he] at h; cases h
  · rw [lastIdxOf] at h; rw [he] at h; cases h; exact ⟨hj', hr⟩

theorem lastIdxOf_nodup {revs : List String} {r : String} {j : Nat}
    (hnd : revs.Nodup) (hj : revs[j]? = some r) : lastIdxOf revs r = some j := by
  have hjl : j < revs.length := by
    by_contra hge
    rw [List.getElem?_eq_none (by omega)] at hj
    cases hj
  rcases lastIdxOf_aux revs r revs.length with ⟨_, hnone⟩ | ⟨j', hj', he, hr, _⟩
  · exact absurd hj (hnone j hjl)
  · rw [lastIdxOf, he]
    have : j = j' := by
      have h1 : revs[j] = r := by
        have := List.getElem?_eq_getElem hjl; rw [this] at hj; exact Option.some.inj hj
      have h2 : revs[j'] = r := by
        have := List.getElem?_eq_getElem hj'; rw [this] at hr; exact Option.some.inj hr
      exact (List.Nodup.getElem_inj_iff hnd).mp (h1.trans h2.symm)
    rw [this]

theorem resolveParent_lt {migs : List Migration} {i p : Nat}
    (h : resolveParent migs i = some p) : p < migs.length := by
  rw [resolveParent] at h
  rcases hm : migs[i]? with _ | m <;> rw [hm] at h
  · cases h
  · rcases hd : m.runner.down_revision with _ | r <;>
      rw [Option.some_bind, hd] at h
    · cases h
    · rw [Option.some_bind] at h
      have := (lastIdxOf_mem h).1
      simpa using this

theorem childList_succ (migs : List Migration) (k j : Nat) :
    childList migs (k + 1) j =
      childList migs k j
        ++ (if resolveParent migs k = some j then [k] else []) := by
  rw [childList, childList, List.range_succ, List.filter_append]
  by_cases h : resolveParent migs k = some j <;> simp [h]

theorem set_getElem?_eq {α} (l : List α) (i : Nat) (a : α) (h : i < l.length) :
    (l.set i a)[i]? = some a := by
  rw [List.getElem?_set]; simp [h]

theorem set_getElem?_ne {α} (l : List α) {i j : Nat} (a : α) (h : i ≠ j) :
    (l.set i a)[j]? = l[j]? := by
  rw [List.getElem?_set]; simp [h]

theorem childList_length_mono (migs : List Migration) (p : Nat) :
    ∀ {k1 k2 : Nat}, k1 ≤ k2 →
      (childList migs k1 p).length ≤ (childList migs k2 p).length := by
  intro k1 k2 h
  induction k2 with
  | zero => cases Nat.le_zero.mp h; exact Nat.le_refl _
  | succ k ih =>
    by_cases h' : k1 ≤ k
    · refine Nat.le_trans (ih h') ?_
      rw [childList_succ, List.length_append]
      exact Nat.le_add_right _ _
    · have : k1 = k + 1 := by omega
      subst this; exact Nat.le_refl _

theorem linkedUpTo_length (migs : List Migration) (k : Nat) :
    (linkedUpTo migs k).length = migs.length := by
  simp [linkedUpTo]

theorem linkedUpTo_getElem? (migs : List Migration) (k j : Nat)
    (hj : j < migs.length) :
    (linkedUpTo migs k)[j]? = some (nodeAt migs k j) := by
  simp [linkedUpTo, nodeAt, hj]

theorem linkedUpTo_getElem?_none (migs : List Migration) (k j : Nat)
    (hj : ¬ j < migs.length) :
    (linkedUpTo migs k)[j]? = none := by
  rw [List.getElem?_eq_none]
  rw [linkedUpTo_length]; omega

theorem initNodes_eq (migs : List Migration) :
    initNodes migs = linkedUpTo migs 0 := by
  apply List.ext_getElem?
  intro j
  by_cases hj : j < migs.length
  · rw [linkedUpTo_getElem? migs 0 j hj]
    have : (initNodes migs)[j]? = (migs[j]?).map (fun m =>
        ({ revision := m.runner.revision, children := [], migration := m,
           parent := none } : Node)) := by
      simp [initNodes]
    rw [this, List.getElem?_eq_getElem hj]
    simp [nodeAt, migAt, List.getElem?_eq_getElem hj, childList]
  · rw [linkedUpTo_getElem?_none migs 0 j hj]
    rw [List.getElem?_eq_none]
    simp [initNodes]; omega

theorem nodeAt_succ_other (migs : List Migration) (k j : Nat)
    (hjk : j ≠ k) (hres : ¬ resolveParent migs k = some j) :
    nodeAt migs (k + 1) j = nodeAt migs k j := by
  have hch : childList migs (k + 1) j = childList migs k j := by
    rw [childList_succ, if_neg hres, List.append_nil]
  have hpar : (if j < k + 1 then resolveParent migs j else none)
      = (if j < k then resolveParent migs j else none) := by
    by_cases hjlt : j < k
    · rw [if_pos (by omega), if_pos hjlt]
    · rw [if_neg (by omega), if_neg hjlt]
  rw [nodeAt, nodeAt, hch, hpar]

theorem linkStep_linked (migs : List Migration)
    (h4 : ∀ p, resolveCount migs p ≤ 4) (k : Nat) (hk : k < migs.length) :
    linkStep migs (linkedUpTo migs k) k = .ok (linkedUpTo migs (k + 1)) := by
  rcases hres : resolveParent migs k with _ | p
  · rw [linkStep, hres, Option.elim_none]
    congr 1
    apply List.ext_getElem?
    intro j
    by_cases hj : j < migs.length
    · rw [linkedUpTo_getElem? migs k j hj, linkedUpTo_getElem? migs (k + 1) j hj]
      by_cases hjk : j = k
      · subst hjk
        simp [nodeAt, childList_succ, hres]
      · rw [nodeAt_succ_other migs k j hjk (by rw [hres]; intro h; cases h)]
    · rw [linkedUpTo_getElem?_none migs k j hj,
        linkedUpTo_getElem?_none migs (k + 1) j hj]
  · have hp : p < migs.length := resolveParent_lt hres
    have hcap : ¬ 4 ≤ (childList migs k p).length := by
      have h1 : (childList migs (k + 1) p).length
          = (childList migs k p).length + 1 := by
        rw [childList_succ, hres]; simp
      have h2 : (childList migs (k + 1) p).length ≤ resolveCount migs p := by
        rw [resolveCount]
        exact childList_length_mono migs p (by omega)
      have := h4 p
      omega
    have hkget : (linkedUpTo migs k)[k]? = some (nodeAt migs k k) :=
      linkedUpTo_getElem? migs k k hk
    rw [linkStep, hres, Option.elim_some, modifyAt, hkget, Option.map_some',
      Option.getD_some]
    by_cases hpk : p = k
    · subst hpk
      rw [set_getElem?_eq _ _ _ (by rw [linkedUpTo_length]; exact hk),
        Option.elim_some]
      dsimp only [nodeAt]
      rw [if_neg hcap, List.set_set]
      congr 1
      apply List.ext_getElem?
      intro j
      by_cases hj : j < migs.length
      · by_cases hjk : j = p
        · subst hjk
          rw [set_getElem?_eq _ _ _ (by rw [linkedUpTo_length]; exact hj),
            linkedUpTo_getElem? migs (j + 1) j hj]
          simp [nodeAt, childList_succ, hres]
        · rw [set_getElem?_ne _ _ (fun h => hjk h.symm),
            linkedUpTo_getElem? migs p j hj,
            linkedUpTo_getElem? migs (p + 1) j hj,
            nodeAt_succ_other migs p j hjk
              (by rw [hres]; intro h; exact hjk (Option.some.inj h).symm)]
      · rw [set_getElem?_ne _ _ (by omega),
          linkedUpTo_getElem?_none migs p j hj,
          linkedUpTo_getElem?_none migs (p + 1) j hj]
    · rw [set_getElem?_ne _ _ (fun h => hpk h.symm),
        linkedUpTo_getElem? migs k p hp, Option.elim_some]
      dsimp only [nodeAt]
      rw [if_neg hcap]
      congr 1
      apply List.ext_getElem?
      intro j
      by_cases hj : j < migs.length
      · rw [linkedUpTo_getElem? migs (k + 1) j hj]
        by_cases hjp : j = p
        · subst hjp
          rw [set_getElem?_eq _ _ _
            (by rw [List.length_set, linkedUpTo_length]; exact hj)]
          simp only [nodeAt, childList_succ, hres, if_pos rfl]
          have hiff : (j < k + 1) ↔ (j < k) := by omega
          simp [hiff]
        · rw [set_getElem?_ne _ _ (fun h => hjp h.symm)]
          by_cases hjk : j = k
          · subst hjk
            rw [set_getElem?_eq _ _ _ (by rw [linkedUpTo_length]; exact hj)]
            have hne : ¬ (p = j) := fun h => hjp h.symm
            simp [nodeAt, childList_succ, hres, hne]
          · rw [set_getElem?_ne _ _ (fun h => hjk h.symm),
              linkedUpTo_getElem? migs k j hj,
              nodeAt_succ_other migs k j hjk
                (by rw [hres]; intro h; exact hjp (Option.some.inj h).symm)]
      · rw [linkedUpTo_getElem?_none migs (k + 1) j hj,
          set_getElem?_ne _ _ (by omega), set_getElem?_ne _ _ (by omega),
          linkedUpTo_getElem?_none migs k j hj]

/-- After `k` steps the linking fold is in the closed-form state, provided
no node ever receives a fifth child. -/
theorem linkFold_ok (migs : List Migration)
    (h4 : ∀ p, resolveCount migs p ≤ 4) :
    ∀ k, k ≤ migs.length →
      (List.range k).foldlM (linkStep migs) (initNodes migs)
        = .ok (linkedUpTo migs k) := by
  intro k
  induction k with
  | zero =>
    intro _
    rw [List.range_zero, List.foldlM_nil, initNodes_eq]
    rfl
  | succ k ih =>
    intro hk
    rw [List.range_succ, List.foldlM_append, ih (by omega)]
    show List.foldlM (linkStep migs) (linkedUpTo migs k) [k] = _
    rw [List.foldlM_cons, linkStep_linked migs h4 k (by omega)]
    show List.foldlM (linkStep migs) (linkedUpTo migs (k + 1)) [] = _
    rw [List.foldlM_nil]
    rfl

/-- The linking pass, in closed form. -/
theorem linkAll_ok (migs : List Migration)
    (h4 : ∀ p, resolveCount migs p ≤ 4) :
    linkAll migs = .ok (linkedNodes migs) := by
  rw [linkAll, linkedNodes]
  exact linkFold_ok migs h4 migs.length (Nat.le_refl _)

/-! ### Construction success characterization -/

/-- Entries beyond the arena never receive children: every resolved
parent index is a valid index. -/
theorem resolveCount_eq_zero_of_ge (migs : List Migration) (p : Nat)
    (h : migs.length ≤ p) : resolveCount migs p = 0 := by
  rw [resolveCount, childList, List.length_eq_zero, List.filter_eq_nil_iff]
  intro i _
  simp only [beq_iff_eq]
  intro hcon
  have := resolveParent_lt hcon
  omega

theorem resolveCount_le_four (migs : List Migration)
    (h4 : ∀ p, p < migs.length → resolveCount migs p ≤ 4) :
    ∀ p, resolveCount migs p ≤ 4 := by
  intro p
  by_cases hp : p < migs.length
  · exact h4 p hp
  · rw [resolveCount_eq_zero_of_ge migs p (by omega)]; omega

/-- A childless node exists in the linked arena exactly when some index
receives no children. -/
theorem linkedNodes_childless_iff (migs : List Migration) :
    (∃ x ∈ linkedNodes migs, x.children.isEmpty = true)
      ↔ ∃ j, j < migs.length ∧ resolveCount migs j = 0 := by
  constructor
  · rintro ⟨x, hx, hempty⟩
    rw [linkedNodes, linkedUpTo] at hx
    rcases List.mem_map.mp hx with ⟨j, hj, rfl⟩
    refine ⟨j, List.mem_range.mp hj, ?_⟩
    rw [resolveCount]
    simpa [List.isEmpty_iff, List.length_eq_zero] using hempty
  · rintro ⟨j, hj, hcount⟩
    refine ⟨nodeAt migs migs.length j, ?_, ?_⟩
    · rw [linkedNodes, linkedUpTo]
      exact List.mem_map.mpr ⟨j, List.mem_range.mpr hj, rfl⟩
    · rw [resolveCount, List.length_eq_zero] at hcount
      simp [nodeAt, hcount]

/-- Graph construction succeeds exactly when some node ends the linking
pass with no children (assuming no child list overflows its capacity of
four).  No condition on the number of roots or heads is involved. -/
theorem tryFrom_isOk_iff (migs : List Migration)
    (h4 : ∀ p, p < migs.length → resolveCount migs p ≤ 4) :
    (tryFrom migs).isOk = true
      ↔ ∃ j, j < migs.length ∧ resolveCount migs j = 0 := by
  rw [tryFrom, linkAll_ok migs (resolveCount_le_four migs h4)]
  show (((linkedNodes migs).findIdx? (fun n => n.children.isEmpty)).elim
    (Except.error BuildError.noHead)
    (fun hix => Except.ok (⟨linkedNodes migs, hix⟩ : RevisionGraph))).isOk
      = true ↔ _
  rcases hfind : (linkedNodes migs).findIdx? (fun n => n.children.isEmpty)
      with _ | hix
  · rw [hfind, Option.elim_none]
    constructor
    · intro h; cases h
    · intro h
      rcases (linkedNodes_childless_iff migs).mpr h with ⟨x, hx, hempty⟩
      have := List.findIdx?_eq_none_iff.mp hfind x hx
      rw [hempty] at this
      cases this
  · rw [hfind, Option.elim_some]
    constructor
    · intro _
      rcases List.findIdx?_eq_some_iff_getElem.mp hfind with ⟨hlt, hpx, _⟩
      exact (linkedNodes_childless_iff migs).mp
        ⟨(linkedNodes migs)[hix], List.getElem_mem hlt, hpx⟩
    · intro _; rfl

/-! ### Linear chains declared in arbitrary insertion order -/

theorem getElem?_some_lt {α} {l : List α} {j : Nat} {a : α}
    (h : l[j]? = some a) : j < l.length := by
  by_contra hge
  rw [List.getElem?_eq_none (by omega)] at h
  cases h

theorem getElem_of_getElem? {α} {l : List α} {j : Nat} {a : α}
    (h : l[j]? = some a) (hj : j < l.length) : l[j] = a := by
  rw [List.getElem?_eq_getElem hj] at h
  exact Option.some.inj h

theorem lastIdxOf_eq_of_unique {revs : List String} {r : String} {j : Nat}
    (hj : revs[j]? = some r) (huniq : ∀ j', revs[j']? = some r → j' = j) :
    lastIdxOf revs r = some j := by
  rcases lastIdxOf_aux revs r revs.length with ⟨_, hnone⟩ | ⟨j', _, he, hr, _⟩
  · exact absurd hj (hnone j (getElem?_some_lt hj))
  · rw [lastIdxOf, he, huniq j' hr]

theorem range_filter_beq_of_lt {n i0 : Nat} (h : i0 < n) :
    (List.range n).filter (fun i => i == i0) = [i0] := by
  induction n with
  | zero => omega
  | succ n ih =>
    rw [List.range_succ, List.filter_append]
    by_cases hi : i0 = n
    · subst hi
      have h1 : (List.range i0).filter (fun i => i == i0) = [] := by
        rw [List.filter_eq_nil_iff]
        intro a ha
        have := List.mem_range.mp ha
        simp only [beq_iff_eq]
        omega
      rw [h1]
      simp
    · have h1 := ih (by omega)
      rw [h1]
      have h2 : ([n].filter (fun i => i == i0)) = [] := by
        simp only [List.filter_cons, List.filter_nil, beq_iff_eq]
        rw [if_neg (by omega)]
      rw [h2, List.append_nil]

namespace ChainPerm

variable {rs : List String} {π σ : Nat → Nat} {migs : List Migration}

theorem rget_inj (c : ChainPerm rs π σ migs) {q1 q2 : Nat}
    (h1 : q1 < rs.length) (h2 : q2 < rs.length)
    (he : rget rs q1 = rget rs q2) : q1 = q2 := by
  rw [rget, rget, List.getElem?_eq_getElem h1, List.getElem?_eq_getElem h2] at he
  exact (List.Nodup.getElem_inj_iff c.nodup).mp he

theorem revsList (c : ChainPerm rs π σ migs) :
    ∀ j, j < rs.length →
      (migs.map (fun m => m.runner.revision))[j]? = some (rget rs (π j)) := by
  intro j hj
  have hjm : j < migs.length := by rw [c.len]; omega
  rw [List.getElem?_map, List.getElem?_eq_getElem hjm]
  have : migs[j] = migAt migs j := by
    rw [migAt, List.getElem?_eq_getElem hjm]; rfl
  rw [Option.map_some', this, c.rev j hj]

theorem lastIdx (c : ChainPerm rs π σ migs) {q : Nat} (hq : q < rs.length) :
    lastIdxOf (migs.map (fun m => m.runner.revision)) (rget rs q)
      = some (σ q) := by
  apply lastIdxOf_eq_of_unique
  · rw [c.revsList (σ q) (c.σlt q hq), c.πσ q hq]
  · intro j' hj'
    have hj'lt : j' < rs.length := by
      have := getElem?_some_lt hj'
      rw [List.length_map, c.len] at this
      omega
    rw [c.revsList j' hj'lt] at hj'
    have := c.rget_inj (c.πlt j' hj'lt) hq (Option.some.inj hj')
    rw [← this, c.σπ j' hj'lt]

theorem migAt_some (c : ChainPerm rs π σ migs) {j : Nat} (hj : j < rs.length) :
    migs[j]? = some (migAt migs j) := by
  have hjm : j < migs.length := by rw [c.len]; omega
  have h1 := List.getElem?_eq_getElem hjm
  rw [migAt, h1]
  rfl

theorem resolve_eq (c : ChainPerm rs π σ migs) {j : Nat} (hj : j < rs.length) :
    resolveParent migs j
      = (if π j = 0 then none else some (σ (π j - 1))) := by
  rw [resolveParent, c.migAt_some hj, Option.some_bind, c.down j hj]
  by_cases h0 : π j = 0
  · rw [if_pos h0, if_pos h0]
    rfl
  · rw [if_neg h0, if_neg h0, Option.some_bind]
    exact c.lastIdx (by have := c.πlt j hj; omega)

theorem childList_eq (c : ChainPerm rs π σ migs) {p : Nat}
    (hp : p < rs.length) :
    childList migs migs.length p
      = (if π p + 1 < rs.length then [σ (π p + 1)] else []) := by
  rw [childList, c.len]
  by_cases hlt : π p + 1 < rs.length
  · rw [if_pos hlt]
    have hcong : ∀ i ∈ List.range rs.length,
        (resolveParent migs i == some p) = (i == σ (π p + 1)) := by
      intro i hi
      have hi' := List.mem_range.mp hi
      rw [c.resolve_eq hi']
      by_cases h0 : π i = 0
      · rw [if_pos h0]
        have hne : ¬ (i = σ (π p + 1)) := by
          intro he
          rw [he] at h0
          rw [c.πσ _ hlt] at h0
          omega
        simp [hne]
      · rw [if_neg h0]
        have hiff : σ (π i - 1) = p ↔ i = σ (π p + 1) := by
          constructor
          · intro he
            have h1 : π (σ (π i - 1)) = π p := by rw [he]
            rw [c.πσ _ (by have := c.πlt i hi'; omega)] at h1
            have h2 : π i = π p + 1 := by omega
            have h3 := c.σπ i hi'
            rw [← h3, h2]
          · intro he
            rw [he, c.πσ _ hlt]
            have : π p + 1 - 1 = π p := by omega
            rw [this]
            exact c.σπ p hp
        simp [hiff]
    rw [List.filter_congr hcong]
    exact range_filter_beq_of_lt (c.σlt _ hlt)
  · rw [if_neg hlt, List.filter_eq_nil_iff]
    intro i hi
    have hi' := List.mem_range.mp hi
    rw [c.resolve_eq hi']
    by_cases h0 : π i = 0
    · simp [h0]
    · rw [if_neg h0]
      simp only [beq_iff_eq, Option.some.injEq]
      intro he
      have h1 : π (σ (π i - 1)) = π p := by rw [he]
      rw [c.πσ _ (by have := c.πlt i hi'; omega)] at h1
      have := c.πlt i hi'
      omega

end ChainPerm

theorem linkedNodes_length (migs : List Migration) :
    (linkedNodes migs).length = migs.length := by
  simp [linkedNodes, linkedUpTo]

theorem linkedNodes_getElem? (migs : List Migration) {j : Nat}
    (hj : j < migs.length) :
    (linkedNodes migs)[j]? = some (nodeAt migs migs.length j) :=
  linkedUpTo_getElem? migs migs.length j hj

theorem linkedNodes_map_rev (migs : List Migration) :
    (linkedNodes migs).map (fun x => x.revision)
      = migs.map (fun m => m.runner.revision) := by
  apply List.ext_getElem?
  intro j
  rw [List.getElem?_map, List.getElem?_map]
  by_cases hj : j < migs.length
  · rw [linkedNodes_getElem? migs hj, List.getElem?_eq_getElem hj]
    have : (nodeAt migs migs.length j).revision
        = (migAt migs j).runner.revision := rfl
    rw [Option.map_some', Option.map_some', this, migAt,
      List.getElem?_eq_getElem hj]
    rfl
  · rw [List.getElem?_eq_none (by rw [linkedNodes_length]; omega),
      List.getElem?_eq_none (by omega)]
    rfl

namespace ChainPerm

variable {rs : List String} {π σ : Nat → Nat} {migs : List Migration}

theorem count_le (c : ChainPerm rs π σ migs) :
    ∀ p, p < migs.length → resolveCount migs p ≤ 4 := by
  intro p hp
  rw [resolveCount, c.childList_eq (by rw [← c.len]; omega)]
  split <;> simp

theorem node_children (c : ChainPerm rs π σ migs) {j : Nat}
    (hj : j < rs.length) :
    (nodeAt migs migs.length j).children
      = (if π j + 1 < rs.length then [σ (π j + 1)] else []) := by
  have : (nodeAt migs migs.length j).children
      = childList migs migs.length j := rfl
  rw [this, c.childList_eq hj]

theorem node_parent (c : ChainPerm rs π σ migs) {j : Nat}
    (hj : j < rs.length) :
    (nodeAt migs migs.length j).parent
      = (if π j = 0 then none else some (σ (π j - 1))) := by
  have h1 : (nodeAt migs migs.length j).parent
      = (if j < migs.length then resolveParent migs j else none) := rfl
  rw [h1, if_pos (by rw [c.len]; omega), c.resolve_eq hj]

theorem node_revision (c : ChainPerm rs π σ migs) {j : Nat}
    (hj : j < rs.length) :
    (nodeAt migs migs.length j).revision = rget rs (π j) := by
  have h1 : (nodeAt migs migs.length j).revision
      = (migAt migs j).runner.revision := rfl
  rw [h1, c.rev j hj]

theorem σ_inj (c : ChainPerm rs π σ migs) {q1 q2 : Nat}
    (h1 : q1 < rs.length) (h2 : q2 < rs.length) (he : σ q1 = σ q2) :
    q1 = q2 := by
  have := congrArg π he
  rw [c.πσ q1 h1, c.πσ q2 h2] at this
  exact this

theorem headIdx (c : ChainPerm rs π σ migs) (hne : rs ≠ []) :
    (linkedNodes migs).findIdx? (fun n => n.children.isEmpty)
      = some (σ (rs.length - 1)) := by
  have hn : 0 < rs.length := List.length_pos.mpr hne
  have hσ : σ (rs.length - 1) < rs.length := c.σlt _ (by omega)
  have hσm : σ (rs.length - 1) < migs.length := by rw [c.len]; omega
  rw [List.findIdx?_eq_some_iff_getElem]
  refine ⟨by rw [linkedNodes_length]; omega, ?_, ?_⟩
  · have hb : σ (rs.length - 1) < (linkedNodes migs).length := by
      rw [linkedNodes_length]; omega
    have hget := linkedNodes_getElem? migs hσm
    have hgetel : (linkedNodes migs)[σ (rs.length - 1)]
        = nodeAt migs migs.length (σ (rs.length - 1)) :=
      getElem_of_getElem? hget hb
    rw [hgetel, c.node_children (by omega)]
    rw [c.πσ _ (by omega)]
    rw [if_neg (by omega)]
    rfl
  · intro j hj
    have hjr : j < rs.length := by omega
    have hjm : j < migs.length := by rw [c.len]; omega
    have hb : j < (linkedNodes migs).length := by
      rw [linkedNodes_length]; omega
    have hget := linkedNodes_getElem? migs hjm
    have hgetel : (linkedNodes migs)[j] = nodeAt migs migs.length j :=
      getElem_of_getElem? hget hb
    rw [hgetel, c.node_children hjr]
    by_cases hlt : π j + 1 < rs.length
    · rw [if_pos hlt]
      simp
    · exfalso
      have hπ : π j = rs.length - 1 := by have := c.πlt j hjr; omega
      have : j = σ (rs.length - 1) := by rw [← hπ, c.σπ j hjr]
      omega

theorem tryFrom_eq (c : ChainPerm rs π σ migs) (hne : rs ≠ []) :
    tryFrom migs
      = .ok ⟨linkedNodes migs, σ (rs.length - 1)⟩ := by
  rw [tryFrom, linkAll_ok migs (resolveCount_le_four migs c.count_le)]
  show (((linkedNodes migs).findIdx? (fun n => n.children.isEmpty)).elim
    (Except.error BuildError.noHead)
    (fun hix => Except.ok (⟨linkedNodes migs, hix⟩ : RevisionGraph))) = _
  rw [c.headIdx hne, Option.elim_some]

end ChainPerm

theorem range_map_shift {α} (f : Nat → α) (d q : Nat) :
    (List.range (d + 1)).map (fun t => f (q + t))
      = f q :: (List.range d).map (fun t => f (q + 1 + t)) := by
  rw [List.range_succ_eq_map, List.map_cons, List.map_map]
  refine congrArg₂ List.cons rfl ?_
  apply List.map_congr_left
  intro a _
  show f (q + (a + 1)) = f (q + 1 + a)
  congr 1
  omega

theorem range_map_shift_sub {α} (f : Nat → α) (q : Nat) :
    (List.range (q + 2)).map (fun t => f (q + 1 - t))
      = f (q + 1) :: (List.range (q + 1)).map (fun t => f (q - t)) := by
  rw [List.range_succ_eq_map, List.map_cons, List.map_map]
  refine congrArg₂ List.cons rfl ?_
  apply List.map_congr_left
  intro a _
  show f (q + 1 - (a + 1)) = f (q - a)
  congr 1
  omega

theorem range_map_rget (rs : List String) :
    (List.range rs.length).map (fun t => rget rs t) = rs := by
  apply List.ext_getElem?
  intro j
  rw [List.getElem?_map]
  by_cases hj : j < rs.length
  · rw [List.getElem?_range hj, Option.map_some', rget,
      List.getElem?_eq_getElem hj]
    rfl
  · have h1 : (List.range rs.length).length ≤ j := by simpa using hj
    have h2 : rs.length ≤ j := by omega
    rw [List.getElem?_eq_none h1, List.getElem?_eq_none h2]
    rfl

theorem range_map_rget_rev (rs : List String) :
    (List.range rs.length).map (fun t => rget rs (rs.length - 1 - t))
      = rs.reverse := by
  apply List.ext_getElem?
  intro j
  rw [List.getElem?_map]
  by_cases hj : j < rs.length
  · have h3 : rs.length - 1 - j < rs.length := by omega
    rw [List.getElem?_range hj, Option.map_some',
      List.getElem?_reverse (by omega), rget,
      List.getElem?_eq_getElem h3]
    rfl
  · have h1 : (List.range rs.length).length ≤ j := by simpa using hj
    have h2 : rs.reverse.length ≤ j := by rw [List.length_reverse]; omega
    rw [List.getElem?_eq_none h1, List.getElem?_eq_none h2]
    rfl

theorem bwdWalk_none (g : RevisionGraph) (s : Option Nat) (fuel : Nat) :
    bwdWalk g s fuel none = some [] := by
  cases fuel <;> rfl

theorem fwdWalk_at_target (g : RevisionGraph) (t fuel : Nat) :
    fwdWalk g t fuel (some t) = some [] := by
  cases fuel <;> simp [fwdWalk]

namespace ChainPerm

variable {rs : List String} {π σ : Nat → Nat} {migs : List Migration}

theorem graph_ix (c : ChainPerm rs π σ migs) {g : RevisionGraph}
    (hg : g.nodes = linkedNodes migs) {q : Nat} (hq : q < rs.length) :
    g.ix (rget rs q) = some (σ q) := by
  rw [RevisionGraph.ix, hg, linkedNodes_map_rev]
  exact c.lastIdx hq

theorem graph_childIx (c : ChainPerm rs π σ migs) {g : RevisionGraph}
    (hg : g.nodes = linkedNodes migs) {j : Nat} (hj : j < rs.length) :
    g.childIx j
      = (if π j + 1 < rs.length then some (σ (π j + 1)) else none) := by
  have hjm : j < migs.length := by rw [c.len]; omega
  rw [RevisionGraph.childIx, hg, linkedNodes_getElem? migs hjm,
    Option.some_bind, c.node_children hj]
  by_cases hlt : π j + 1 < rs.length
  · rw [if_pos hlt, if_pos hlt]
    rfl
  · rw [if_neg hlt, if_neg hlt]
    rfl

theorem graph_parentIx (c : ChainPerm rs π σ migs) {g : RevisionGraph}
    (hg : g.nodes = linkedNodes migs) {j : Nat} (hj : j < rs.length) :
    g.parentIx j = (if π j = 0 then none else some (σ (π j - 1))) := by
  have hjm : j < migs.length := by rw [c.len]; omega
  rw [RevisionGraph.parentIx, hg, linkedNodes_getElem? migs hjm,
    Option.some_bind, c.node_parent hj]

theorem fwd_walk (c : ChainPerm rs π σ migs) {g : RevisionGraph}
    (hg : g.nodes = linkedNodes migs) :
    ∀ d q fuel, q < rs.length → d = rs.length - 1 - q → d ≤ fuel →
      fwdWalk g (σ (rs.length - 1)) fuel (some (σ q))
        = some ((List.range d).map (fun t => σ (q + t))) := by
  intro d
  induction d with
  | zero =>
    intro q fuel hq hd _
    have hq' : q = rs.length - 1 := by omega
    subst hq'
    rw [fwdWalk_at_target]
    rfl
  | succ d ih =>
    intro q fuel hq hd hfuel
    have hn : q + 1 < rs.length := by omega
    rcases fuel with _ | f
    · omega
    · have hne : ¬ (σ q = σ (rs.length - 1)) := by
        intro he
        have := c.σ_inj hq (by omega) he
        omega
      have hchild : g.childIx (σ q) = some (σ (q + 1)) := by
        rw [c.graph_childIx hg (c.σlt q hq), c.πσ q hq, if_pos hn]
      rw [fwdWalk, if_neg hne, hchild,
        ih (q + 1) f (by omega) (by omega) (by omega), Option.map_some']
      rw [range_map_shift (fun t => σ t) d q]

theorem bwd_walk (c : ChainPerm rs π σ migs) {g : RevisionGraph}
    (hg : g.nodes = linkedNodes migs) :
    ∀ q fuel, q < rs.length → q + 1 ≤ fuel →
      bwdWalk g none fuel (some (σ q))
        = some ((List.range (q + 1)).map (fun t => σ (q - t))) := by
  intro q
  induction q with
  | zero =>
    intro fuel h0 hf
    rcases fuel with _ | f
    · omega
    · have hpar : g.parentIx (σ 0) = none := by
        rw [c.graph_parentIx hg (c.σlt 0 h0), c.πσ 0 h0, if_pos rfl]
      rw [bwdWalk, if_neg (by simp), hpar, bwdWalk_none, Option.map_some']
      rfl
  | succ q ih =>
    intro fuel hq hf
    rcases fuel with _ | f
    · omega
    · have hpar : g.parentIx (σ (q + 1)) = some (σ q) := by
        rw [c.graph_parentIx hg (c.σlt _ hq), c.πσ _ hq, if_neg (by omega)]
        have : q + 1 - 1 = q := by omega
        rw [this]
      rw [bwdWalk, if_neg (by simp), hpar,
        ih f (by omega) (by omega), Option.map_some']
      rw [range_map_shift_sub (fun t => σ t) q]

theorem path_nodes (_c : ChainPerm rs π σ migs) {g : RevisionGraph}
    (hg : g.nodes = linkedNodes migs) :
    ∀ ixs : List Nat, (∀ i ∈ ixs, i < migs.length) →
      ixs.filterMap (fun i => g.nodes[i]?)
        = ixs.map (fun i => nodeAt migs migs.length i) := by
  intro ixs
  induction ixs with
  | nil => intro _; rfl
  | cons a l ih =>
    intro hall
    rw [List.filterMap_cons, hg, linkedNodes_getElem? migs (hall a (by simp)),
      List.map_cons]
    rw [← hg, ih (fun i hi => hall i (by simp [hi]))]

theorem node_map_revision (c : ChainPerm rs π σ migs) (ixs : List Nat)
    (hall : ∀ i ∈ ixs, i < rs.length) :
    (ixs.map (fun i => nodeAt migs migs.length i)).map (fun x => x.revision)
      = ixs.map (fun i => rget rs (π i)) := by
  rw [List.map_map]
  apply List.map_congr_left
  intro i hi
  exact c.node_revision (hall i hi)

end ChainPerm

theorem range_map_append_last {α} (f : Nat → α) (n : Nat) (hn : 0 < n) :
    (List.range (n - 1)).map f ++ [f (n - 1)] = (List.range n).map f := by
  conv_rhs => rw [show n = (n - 1) + 1 by omega]
  rw [List.range_succ, List.map_append]
  rfl

namespace ChainPerm

variable {rs : List String} {π σ : Nat → Nat} {migs : List Migration}

theorem forward_path_nodes (c : ChainPerm rs π σ migs) (hne : rs ≠ [])
    {g : RevisionGraph} (hg : g.nodes = linkedNodes migs) :
    g.forward_path (some (rget rs 0)) (rget rs (rs.length - 1))
      = some (((List.range rs.length).map σ).map
          (fun i => nodeAt migs migs.length i)) := by
  have hn : 0 < rs.length := List.length_pos.mpr hne
  have hlen : g.nodes.length = rs.length := by
    rw [hg, linkedNodes_length, c.len]
  have hall : ∀ i ∈ (List.range rs.length).map σ, i < migs.length := by
    intro i hi
    rcases List.mem_map.mp hi with ⟨q, hq, rfl⟩
    rw [c.len]
    exact c.σlt q (List.mem_range.mp hq)
  rw [RevisionGraph.forward_path, c.graph_ix hg (by omega), Option.elim_some,
    Option.some_bind, c.graph_ix hg hn, hlen,
    c.fwd_walk hg (rs.length - 1) 0 (rs.length + 1) hn (by omega) (by omega),
    Option.map_some']
  have hzero : (List.range (rs.length - 1)).map (fun t => σ (0 + t))
      = (List.range (rs.length - 1)).map σ :=
    List.map_congr_left (fun a _ => by rw [Nat.zero_add])
  rw [hzero, range_map_append_last σ rs.length hn,
    c.path_nodes hg ((List.range rs.length).map σ) hall]

theorem forward_path_full (c : ChainPerm rs π σ migs) (hne : rs ≠ [])
    {g : RevisionGraph} (hg : g.nodes = linkedNodes migs) :
    (g.forward_path (some (rget rs 0)) (rget rs (rs.length - 1))).map
      (fun l => l.map (fun x => x.revision)) = some rs := by
  have hall' : ∀ i ∈ (List.range rs.length).map σ, i < rs.length := by
    intro i hi
    rcases List.mem_map.mp hi with ⟨q, hq, rfl⟩
    exact c.σlt q (List.mem_range.mp hq)
  rw [c.forward_path_nodes hne hg, Option.map_some',
    c.node_map_revision ((List.range rs.length).map σ) hall', List.map_map]
  have hc : ∀ q ∈ List.range rs.length,
      ((fun i => rget rs (π i)) ∘ σ) q = rget rs q := by
    intro q hq
    show rget rs (π (σ q)) = rget rs q
    rw [c.πσ q (List.mem_range.mp hq)]
  rw [List.map_congr_left hc, range_map_rget]

theorem backward_path_nodes (c : ChainPerm rs π σ migs) (hne : rs ≠ [])
    {g : RevisionGraph} (hg : g.nodes = linkedNodes migs) :
    g.backward_path (some (rget rs (rs.length - 1))) none
      = some (((List.range rs.length).map (fun t => σ (rs.length - 1 - t))).map
          (fun i => nodeAt migs migs.length i)) := by
  have hn : 0 < rs.length := List.length_pos.mpr hne
  have hlen : g.nodes.length = rs.length := by
    rw [hg, linkedNodes_length, c.len]
  have hall : ∀ i ∈ (List.range rs.length).map
      (fun t => σ (rs.length - 1 - t)), i < migs.length := by
    intro i hi
    rcases List.mem_map.mp hi with ⟨q, _, rfl⟩
    rw [c.len]
    exact c.σlt _ (by omega)
  rw [RevisionGraph.backward_path, Option.none_bind, Option.some_bind,
    c.graph_ix hg (by omega), hlen,
    c.bwd_walk hg (rs.length - 1) (rs.length + 1) (by omega) (by omega),
    Option.map_some']
  have h1 : rs.length - 1 + 1 = rs.length := by omega
  rw [h1,
    c.path_nodes hg ((List.range rs.length).map
      (fun t => σ (rs.length - 1 - t))) hall]

theorem backward_path_full (c : ChainPerm rs π σ migs) (hne : rs ≠ [])
    {g : RevisionGraph} (hg : g.nodes = linkedNodes migs) :
    (g.backward_path (some (rget rs (rs.length - 1))) none).map
      (fun l => l.map (fun x => x.revision)) = some rs.reverse := by
  have hn : 0 < rs.length := List.length_pos.mpr hne
  have hall' : ∀ i ∈ (List.range rs.length).map
      (fun t => σ (rs.length - 1 - t)), i < rs.length := by
    intro i hi
    rcases List.mem_map.mp hi with ⟨q, _, rfl⟩
    exact c.σlt _ (by omega)
  rw [c.backward_path_nodes hne hg, Option.map_some',
    c.node_map_revision _ hall', List.map_map]
  have hc : ∀ t ∈ List.range rs.length,
      ((fun i => rget rs (π i)) ∘ (fun t => σ (rs.length - 1 - t))) t
        = rget rs (rs.length - 1 - t) := by
    intro t ht
    show rget rs (π (σ (rs.length - 1 - t))) = rget rs (rs.length - 1 - t)
    rw [c.πσ _ (by omega)]
  rw [List.map_congr_left hc, range_map_rget_rev]

end ChainPerm

/-- C4: claim says construction succeeds only with exactly one root and
exactly one head, and fails otherwise.  Counterexample: two disjoint
roots (two roots, two heads) construct successfully. -/
theorem c4_counterexample :
    (tryFrom twoRoots).isOk = true
      ∧ (tryFrom twoRoots).toOption.map
          (fun g => (rootCount g.nodes, headCount g.nodes)) = some (2, 2) := by
  constructor
  · rfl
  · rfl

/-- C4 (amended): graph construction succeeds exactly when at least one
node ends the linking pass with no children (given that no node collects
more than four children); the number of roots and the number of heads are
not constrained, so duplicated roots or heads do not cause failure. -/
theorem c4_success_iff_childless (migs : List Migration)
    (h4 : ∀ p, p < migs.length → resolveCount migs p ≤ 4) :
    (tryFrom migs).isOk = true
      ↔ ∃ j, j < migs.length ∧ resolveCount migs j = 0 :=
  tryFrom_isOk_iff migs h4

theorem c4_success_iff_childless_witness :
    ((∀ p, p < twoRoots.length → resolveCount twoRoots p ≤ 4)
      ∧ ((tryFrom twoRoots).isOk = true
          ↔ ∃ j, j < twoRoots.length ∧ resolveCount twoRoots j = 0)) :=
  ⟨by decide, c4_success_iff_childless twoRoots (by decide)⟩

/-- C5: for any linear chain r1 ← r2 ← … ← rN declared in any insertion
order, the graph builds and `forward_path(r1, rN)` yields `[r1, …, rN]`
while `backward_path(rN, none)` yields `[rN, …, r1]`. -/
theorem c5_chain_roundtrip (rs : List String) (π σ : Nat → Nat)
    (migs : List Migration) (hne : rs ≠ []) (c : ChainPerm rs π σ migs) :
    ∃ g, tryFrom migs = .ok g
      ∧ (g.forward_path (some (rget rs 0)) (rget rs (rs.length - 1))).map
          (fun l => l.map (fun x => x.revision)) = some rs
      ∧ (g.backward_path (some (rget rs (rs.length - 1))) none).map
          (fun l => l.map (fun x => x.revision)) = some rs.reverse := by
  refine ⟨⟨linkedNodes migs, σ (rs.length - 1)⟩, c.tryFrom_eq hne, ?_, ?_⟩
  · exact c.forward_path_full hne rfl
  · exact c.backward_path_full hne rfl

theorem c5_chain_roundtrip_witness :
    ∃ g, tryFrom chainPermuted = .ok g
      ∧ (g.forward_path (some "a") "c").map
          (fun l => l.map (fun x => x.revision)) = some ["a", "b", "c"]
      ∧ (g.backward_path (some "c") none).map
          (fun l => l.map (fun x => x.revision)) = some ["c", "b", "a"] := by
  have h := c5_chain_roundtrip ["a", "b", "c"]
    (fun j => (j + 1) % 3) (fun q => (q + 2) % 3) chainPermuted
    (by decide)
    ⟨rfl, by decide, by decide, by decide, by decide, by decide, by decide,
      by decide⟩
  exact h

/-- C7: claim says forward_path with from = none returns the empty path.
Counterexample: on the single-node graph it returns the one-element path
`[a]` (matching the repository's own unit test). -/
theorem c7_counterexample :
    ∃ g, tryFrom singleA = .ok g
      ∧ g.forward_path none "a" ≠ some []
      ∧ (g.forward_path none "a").map
          (fun l => l.map (fun x => x.revision)) = some ["a"] := by
  refine ⟨⟨linkedNodes singleA, 0⟩, by rfl, by decide, by rfl⟩

/-- C7 (amended): forward_path with from = none returns the singleton
path `[to]` (the walked prefix is empty and the target is appended); an
unknown `to` still fails (the `expect` panic). -/
theorem c7_forward_from_none (g : RevisionGraph) (t : String) :
    ((g.ix t).isSome = false → g.forward_path none t = none)
    ∧ (∀ tIx node, g.ix t = some tIx → g.nodes[tIx]? = some node →
        g.forward_path none t = some [node]) := by
  constructor
  · intro h
    rw [RevisionGraph.forward_path]
    rcases hix : g.ix t with _ | tIx
    · rfl
    · rw [hix] at h
      cases h
  · intro tIx node hix hnode
    rw [RevisionGraph.forward_path, hix, Option.elim_some, Option.none_bind]
    have hwalk : fwdWalk g tIx (g.nodes.length + 1) none = some [] := rfl
    rw [hwalk, Option.map_some', List.nil_append, List.filterMap_cons, hnode]
    rfl

theorem c7_forward_from_none_witness :
    ∃ g, tryFrom singleA = .ok g
      ∧ (g.ix "zzz").isSome = false
      ∧ g.forward_path none "zzz" = none
      ∧ g.ix "a" = some 0
      ∧ g.forward_path none "a"
          = some [{ revision := "a", children := [],
                    migration := mkPending "a" none, parent := none }] := by
  refine ⟨⟨linkedNodes singleA, 0⟩, by rfl, by rfl, ?_, by rfl, ?_⟩
  · exact (c7_forward_from_none ⟨linkedNodes singleA, 0⟩ "zzz").1 (by rfl)
  · exact (c7_forward_from_none ⟨linkedNodes singleA, 0⟩ "a").2 0 _ (by rfl)
      (by rfl)

theorem exceptElim_error {ε α β} (e : ε) (f : ε → β) (g : α → β) :
    exceptElim (.error e) f g = f e := rfl

theorem exceptElim_ok {ε α β} (a : α) (f : ε → β) (g : α → β) :
    exceptElim (.ok a) f g = g a := rfl

/-- C1: the spec's step 4 says Up is `forward_path(from ?? queue,
to ?? head)` and Down is `backward_path(head, to)`.  The legacy driver
follows it, but the vectorctl driver's `exec` swaps head and queue: on
the chain a ← b ← c (declared in order) its Up default path is `[c, a]`
and its Down/reset path is `[a]`, while the legacy driver gives
`[a, b, c]` and `[c, b, a]`. -/
theorem c1_vectorctl_exec_swaps_head_and_queue :
    ∃ g, tryFrom chainOrdered = .ok g
      ∧ (vexecPath g .Up none none).map
          (fun l => l.map (fun n => n.revision)) = some ["c", "a"]
      ∧ (vexecPath g .Down none none).map
          (fun l => l.map (fun n => n.revision)) = some ["a"]
      ∧ (legacyUpPath g none none).map
          (fun l => l.map (fun n => n.revision)) = some ["a", "b", "c"]
      ∧ (legacyDownPath g none).map
          (fun l => l.map (fun n => n.revision)) = some ["c", "b", "a"] := by
  exact ⟨⟨linkedNodes chainOrdered, 2⟩, by rfl, by rfl, by rfl, by rfl, by rfl⟩

theorem execUp_write_shape (decls : List MigDecl) (from? to? : Option String)
    (s : DriverState) :
    ((execUp decls from? to? s).result.isOk = false
        ∧ (execUp decls from? to? s).ops = [])
    ∨ ((execUp decls from? to? s).result.isOk = true
        ∧ ((execUp decls from? to? s).ops = []
            ∨ ∃ names, names ≠ []
                ∧ (execUp decls from? to? s).ops
                    = [LedgerOp.insertMany names])) := by
  unfold execUp
  rcases hG : getOrInitGraph s.graphCell
      ((migrationsWithStatus decls s.ledger).filter
        (fun m => m.status == MigrationStatus.Pending)) with e | pr
  · simp [exceptElim_error]
  · simp only [exceptElim_ok]
    rcases hQ : ((pr.1.queueRev).bind (fun qu => (pr.1.headRev).map
        (fun hd => (qu, hd)))) with _ | qh
    · simp [Option.elim_none]
    · simp only [Option.elim_some]
      rcases hP : pr.1.forward_path (some (from?.getD qh.1)) (to?.getD qh.2)
          with _ | path
      · simp [Option.elim_none]
      · simp only [Option.elim_some]
        rcases hS : sequenceE (path.map (runUpEntry pr.1)) with e | names
        · simp [exceptElim_error]
        · simp only [exceptElim_ok]
          by_cases hE : names.isEmpty
          · rw [if_pos hE]
            simp
          · rw [if_neg hE]
            right
            refine ⟨rfl, Or.inr ⟨names, ?_, rfl⟩⟩
            intro hnil
            rw [hnil] at hE
            exact hE rfl

theorem execDown_write_shape (decls : List MigDecl) (to? : Option String)
    (s : DriverState) :
    ((execDown decls to? s).result.isOk = false
        ∧ (execDown decls to? s).ops = [])
    ∨ ((execDown decls to? s).result.isOk = true
        ∧ ((execDown decls to? s).ops = []
            ∨ ∃ ids, ids ≠ []
                ∧ (execDown decls to? s).ops = [LedgerOp.deleteMany ids])) := by
  unfold execDown
  rcases hG : getOrInitGraph s.graphCell
      ((migrationsWithStatus decls s.ledger).filter
        (fun m => m.status == MigrationStatus.Applied)) with e | pr
  · simp [exceptElim_error]
  · simp only [exceptElim_ok]
    rcases hH : pr.1.headRev with _ | hd
    · simp [Option.elim_none]
    · simp only [Option.elim_some]
      rcases hP : pr.1.backward_path (some hd) to? with _ | path
      · simp [Option.elim_none]
      · simp only [Option.elim_some]
        rcases hS : sequenceE
            ((path.filterMap (fun n => pr.1.get n.revision)).map runDownEntry)
            with e | ids
        · simp [hS, exceptElim_error]
        · simp only [hS, exceptElim_ok]
          by_cases hE : ids.isEmpty
          · rw [if_pos hE]
            simp
          · rw [if_neg hE]
            right
            refine ⟨rfl, Or.inr ⟨ids, ?_, rfl⟩⟩
            intro hnil
            rw [hnil] at hE
            exact hE rfl

theorem runUpLeg_write_shape (items : List (Option Nat × MigDecl))
    (led : LedgerState) :
    ((runUpLeg items led).1.isOk = false ∧ (runUpLeg items led).2 = [])
    ∨ ((runUpLeg items led).1.isOk = true
        ∧ ((runUpLeg items led).2 = []
            ∨ ∃ names, names ≠ []
                ∧ (runUpLeg items led).2 = [LedgerOp.insertMany names])) := by
  unfold runUpLeg
  rcases hS : sequenceE (items.map (fun it =>
      if it.2.upOk then Except.ok it.2.name
      else Except.error (MigErr.userUp it.2.name))) with e | names
  · simp [hS, exceptElim_error]
  · simp only [hS, exceptElim_ok]
    by_cases hE : names.isEmpty
    · rw [if_pos hE]
      simp
    · rw [if_neg hE]
      right
      refine ⟨rfl, Or.inr ⟨names, ?_, rfl⟩⟩
      intro hnil
      rw [hnil] at hE
      exact hE rfl

theorem runDownLeg_write_shape (items : List (Option Nat × MigDecl))
    (led : LedgerState) :
    ((runDownLeg items led).1.isOk = false ∧ (runDownLeg items led).2 = [])
    ∨ ((runDownLeg items led).1.isOk = true
        ∧ ((runDownLeg items led).2 = []
            ∨ ∃ ids, ids ≠ []
                ∧ (runDownLeg items led).2 = [LedgerOp.deleteMany ids])) := by
  unfold runDownLeg
  rcases hS : sequenceE (items.map (fun it =>
      it.1.elim (Except.error (MigErr.notFound it.2.name))
        (fun id => if it.2.downOk then Except.ok id
                   else Except.error (MigErr.userDown it.2.name))))
      with e | ids
  · simp [hS, exceptElim_error]
  · simp only [hS, exceptElim_ok]
    by_cases hE : ids.isEmpty
    · rw [if_pos hE]
      simp
    · rw [if_neg hE]
      right
      refine ⟨rfl, Or.inr ⟨ids, ?_, rfl⟩⟩
      intro hnil
      rw [hnil] at hE
      exact hE rfl

/-- C2: in every leg of both drivers, a failure of any awaited call (in
particular any user up/down failure) means no ledger mutation at all is
performed for that leg; when the leg succeeds, the ledger is mutated by
at most one write (a single `insert_many` or `delete_many`), issued at
the end of the leg. -/
theorem c2_no_partial_ledger_write (decls : List MigDecl)
    (from? to? : Option String) (s : DriverState)
    (items : List (Option Nat × MigDecl)) (led : LedgerState) :
    ((execUp decls from? to? s).result.isOk = false
        → (execUp decls from? to? s).ops = [])
    ∧ ((execUp decls from? to? s).result.isOk = true
        → (execUp decls from? to? s).ops = []
          ∨ ∃ names, names ≠ []
              ∧ (execUp decls from? to? s).ops = [LedgerOp.insertMany names])
    ∧ ((execDown decls to? s).result.isOk = false
        → (execDown decls to? s).ops = [])
    ∧ ((execDown decls to? s).result.isOk = true
        → (execDown decls to? s).ops = []
          ∨ ∃ ids, ids ≠ []
              ∧ (execDown decls to? s).ops = [LedgerOp.deleteMany ids])
    ∧ ((runUpLeg items led).1.isOk = false → (runUpLeg items led).2 = [])
    ∧ ((runUpLeg items led).1.isOk = true
        → (runUpLeg items led).2 = []
          ∨ ∃ names, names ≠ []
              ∧ (runUpLeg items led).2 = [LedgerOp.insertMany names])
    ∧ ((runDownLeg items led).1.isOk = false → (runDownLeg items led).2 = [])
    ∧ ((runDownLeg items led).1.isOk = true
        → (runDownLeg items led).2 = []
          ∨ ∃ ids, ids ≠ []
              ∧ (runDownLeg items led).2 = [LedgerOp.deleteMany ids]) := by
  refine ⟨?_, ?_, ?_, ?_, ?_, ?_, ?_, ?_⟩ <;> intro h
  · rcases execUp_write_shape decls from? to? s with ⟨_, h2⟩ | ⟨h1, _⟩
    · exact h2
    · exact (Bool.noConfusion (h1.symm.trans h) : False).elim
  · rcases execUp_write_shape decls from? to? s with ⟨h1, _⟩ | ⟨_, h2⟩
    · exact (Bool.noConfusion (h1.symm.trans h) : False).elim
    · exact h2
  · rcases execDown_write_shape decls to? s with ⟨_, h2⟩ | ⟨h1, _⟩
    · exact h2
    · exact (Bool.noConfusion (h1.symm.trans h) : False).elim
  · rcases execDown_write_shape decls to? s with ⟨h1, _⟩ | ⟨_, h2⟩
    · exact (Bool.noConfusion (h1.symm.trans h) : False).elim
    · exact h2
  · rcases runUpLeg_write_shape items led with ⟨_, h2⟩ | ⟨h1, _⟩
    · exact h2
    · exact (Bool.noConfusion (h1.symm.trans h) : False).elim
  · rcases runUpLeg_write_shape items led with ⟨h1, _⟩ | ⟨_, h2⟩
    · exact (Bool.noConfusion (h1.symm.trans h) : False).elim
    · exact h2
  · rcases runDownLeg_write_shape items led with ⟨_, h2⟩ | ⟨h1, _⟩
    · exact h2
    · exact (Bool.noConfusion (h1.symm.trans h) : False).elim
  · rcases runDownLeg_write_shape items led with ⟨h1, _⟩ | ⟨_, h2⟩
    · exact (Bool.noConfusion (h1.symm.trans h) : False).elim
    · exact h2

theorem c2_no_partial_ledger_write_witness :
    ((freshUpRun [{ name := "a", revision := "a", down_revision := none },
        { name := "b", revision := "b", down_revision := some "a",
          upOk := false }]).result.isOk = false
      ∧ (freshUpRun [{ name := "a", revision := "a", down_revision := none },
          { name := "b", revision := "b", down_revision := some "a",
            upOk := false }]).ops = [])
    ∧ ((freshUpRun declsAB).result.isOk = true
      ∧ (freshUpRun declsAB).ops = [LedgerOp.insertMany ["a", "b"]]) := by
  constructor
  · constructor
    · rfl
    · exact (c2_no_partial_ledger_write
        [{ name := "a", revision := "a", down_revision := none },
         { name := "b", revision := "b", down_revision := some "a",
           upOk := false }] none none emptyState [] ⟨[], 0⟩).1 (by rfl)
  · exact ⟨by rfl, by rfl⟩

/-- C9: a `stop` revision unknown to the graph resolves to
`stop_ix = None`, so `backward_path` runs to the root exactly as with
`stop = none`; consequently the legacy driver's `down(to = unknown)`
reverts (and deletes from the ledger) every applied migration, as shown
on the fully applied chain a ← b with the unknown target "zzz". -/
theorem c9_unknown_stop_reverts_all (g : RevisionGraph)
    (cur : Option String) (stop : String) (h : g.ix stop = none) :
    g.backward_path cur (some stop) = g.backward_path cur none
    ∧ execDown declsAB (some "zzz") stateAB = execDown declsAB none stateAB
    ∧ (execDown declsAB (some "zzz") stateAB).ops
        = [LedgerOp.deleteMany [1, 0]]
    ∧ appliedNames (execDown declsAB (some "zzz") stateAB).state = [] := by
  refine ⟨?_, by rfl, by rfl, by rfl⟩
  rw [RevisionGraph.backward_path, RevisionGraph.backward_path,
    Option.some_bind, h, Option.none_bind]

theorem c9_unknown_stop_reverts_all_witness :
    (RevisionGraph.ix ⟨linkedNodes singleA, 0⟩ "zzz" = none)
    ∧ RevisionGraph.backward_path ⟨linkedNodes singleA, 0⟩ (some "a")
        (some "zzz")
      = RevisionGraph.backward_path ⟨linkedNodes singleA, 0⟩ (some "a") none :=
  ⟨by rfl,
    (c9_unknown_stop_reverts_all ⟨linkedNodes singleA, 0⟩ (some "a") "zzz"
      (by rfl)).1⟩

/-- C3: claim says refresh() then retrieve() equals a fresh up() against
an empty ledger, for any ledger state.  Counterexample: chain a ← b with
only a applied.  The memoized graph is built (in the Down leg) from the
applied subset {a} alone, and the Up leg reuses it, so refresh re-applies
only a: retrieve() = {a}, while a fresh up() yields {a, b}. -/
theorem c3_counterexample :
    (refreshRun declsAB stateOnlyA).result = .ok ()
    ∧ appliedNames (refreshRun declsAB stateOnlyA).state = ["a"]
    ∧ (freshUpRun declsAB).result = .ok ()
    ∧ appliedNames (freshUpRun declsAB).state = ["a", "b"]
    ∧ "b" ∈ appliedNames (freshUpRun declsAB).state
    ∧ "b" ∉ appliedNames (refreshRun declsAB stateOnlyA).state := by
  refine ⟨by rfl, by rfl, by rfl, by rfl, by decide, by decide⟩

/-- C6: claim says each migration's up is awaited to completion in path
order before the next begins.  Counterexample: with two 2-poll ups the
joined execution polls migration 1 (event (1,0)) before migration 0
completes (event (0,1)). -/
theorem c6_counterexample :
    runUpPollTrace twoSlowUps = [(0, 0), (1, 0), (0, 1), (1, 1)]
    ∧ seqUpPollTrace twoSlowUps = [(0, 0), (0, 1), (1, 0), (1, 1)]
    ∧ runUpPollTrace twoSlowUps ≠ seqUpPollTrace twoSlowUps
    ∧ (runUpPollTrace twoSlowUps)[1]? = some (1, 0)
    ∧ (runUpPollTrace twoSlowUps)[2]? = some (0, 1) := by
  refine ⟨by rfl, by rfl, by decide, by rfl, by rfl⟩

theorem getD_le_foldr_max (steps : List Nat) :
    ∀ i : Nat, (steps[i]?).getD 0 ≤ steps.foldr max 0 := by
  induction steps with
  | nil => intro i; simp
  | cons a l ih =>
    intro i
    cases i with
    | zero =>
      simp only [List.getElem?_cons_zero, Option.getD_some, List.foldr_cons]
      exact Nat.le_max_left _ _
    | succ i =>
      simp only [List.getElem?_cons_succ, List.foldr_cons]
      exact Nat.le_trans (ih i) (Nat.le_max_right _ _)

theorem bind_singleton_map {α β} (l : List α) (f : α → β) :
    l.flatMap (fun a => [f a]) = l.map f := by
  induction l with
  | nil => rfl
  | cons a l ih => rw [List.flatMap_cons, List.map_cons, ih]; rfl

theorem filterMap_all_some {α β} {l : List α} {f : α → Option β}
    {g : α → β} (h : ∀ a ∈ l, f a = some (g a)) :
    l.filterMap f = l.map g := by
  induction l with
  | nil => rfl
  | cons a l ih =>
    rw [List.filterMap_cons, h a (by simp), List.map_cons,
      ih (fun x hx => h x (by simp [hx]))]

theorem bind_congr_fn {α β} {l : List α} {f g : α → List β}
    (h : ∀ a ∈ l, f a = g a) : l.flatMap f = l.flatMap g := by
  induction l with
  | nil => rfl
  | cons a l ih =>
    rw [List.flatMap_cons, List.flatMap_cons, h a (by simp),
      ih (fun x hx => h x (by simp [hx]))]

theorem foldr_max_le_one {l : List Nat} (h : ∀ x ∈ l, x ≤ 1) :
    l.foldr max 0 ≤ 1 := by
  induction l with
  | nil => simp
  | cons a l ih =>
    show max a (l.foldr max 0) ≤ 1
    have h1 := h a (by simp)
    have h2 := ih (fun x hx => h x (by simp [hx]))
    omega

theorem mem_append_positions {α} {l1 l2 : List α} {x y : α}
    (hx : x ∈ l1) (hy : y ∈ l2) :
    ∃ p q : Nat, p < q ∧ (l1 ++ l2)[p]? = some x
      ∧ (l1 ++ l2)[q]? = some y := by
  obtain ⟨p, hp⟩ := List.mem_iff_getElem?.mp hx
  obtain ⟨qy, hqy⟩ := List.mem_iff_getElem?.mp hy
  have hplt : p < l1.length := getElem?_some_lt hp
  refine ⟨p, l1.length + qy, by omega, ?_, ?_⟩
  · rw [List.getElem?_append_left hplt]
    exact hp
  · rw [List.getElem?_append_right (by omega)]
    have h : l1.length + qy - l1.length = qy := by omega
    rw [h]
    exact hqy

/-- C6 (amended): the driver does not await user calls one-by-one; it
hands all of a leg's futures to one joint await which polls every
pending future once per round in path order.  Three facts: when every up
completes in a single poll the joint schedule coincides with the
sequential one; every required poll of every call occurs (membership
characterization); and whenever an earlier migration needs at least two
polls, any later migration receives its first poll strictly before the
earlier migration's second poll, i.e. it starts before the earlier one
can have completed. -/
theorem c6_joinall_schedule (migs : List MigDecl) :
    ((∀ m ∈ migs, m.upPolls = 1)
        → runUpPollTrace migs = seqUpPollTrace migs)
    ∧ (∀ i r, (i, r) ∈ runUpPollTrace migs
        ↔ i < migs.length ∧ r < ((migs.map (fun m => m.upPolls))[i]?).getD 0)
    ∧ (∀ i j : Nat, i < j → j < migs.length
        → 2 ≤ ((migs.map (fun m => m.upPolls))[i]?).getD 0
        → 1 ≤ ((migs.map (fun m => m.upPolls))[j]?).getD 0
        → ∃ p q : Nat, p < q
            ∧ (runUpPollTrace migs)[p]? = some (j, 0)
            ∧ (runUpPollTrace migs)[q]? = some (i, 1)) := by
  refine ⟨?_, ?_, ?_⟩
  · intro h1
    have hsteps : ∀ i, i < migs.length →
        (((migs.map (fun m => m.upPolls))[i]?).getD 0) = 1 := by
      intro i hi
      rw [List.getElem?_map, List.getElem?_eq_getElem hi, Option.map_some',
        Option.getD_some]
      exact h1 migs[i] (List.getElem_mem hi)
    rw [runUpPollTrace, seqUpPollTrace, joinAllTrace, seqTrace]
    by_cases hlen : migs.length = 0
    · have : migs = [] := List.length_eq_zero.mp hlen
      subst this
      rfl
    · have h0 : 0 < migs.length := by omega
      have hmax : (migs.map (fun m => m.upPolls)).foldr max 0 = 1 := by
        apply Nat.le_antisymm
        · apply foldr_max_le_one
          intro x hx
          rcases List.mem_map.mp hx with ⟨m, hm, rfl⟩
          rw [h1 m hm]
        · have := getD_le_foldr_max (migs.map (fun m => m.upPolls)) 0
          rw [hsteps 0 h0] at this
          exact this
      rw [List.length_map, hmax]
      have hrow : (List.range 1).flatMap (fun r =>
          (List.range migs.length).filterMap (fun i =>
            if r < ((migs.map (fun m => m.upPolls))[i]?).getD 0
            then some (i, r) else none))
          = (List.range migs.length).map (fun i => (i, 0)) := by
        show (List.range migs.length).filterMap (fun i =>
          if 0 < ((migs.map (fun m => m.upPolls))[i]?).getD 0
          then some (i, 0) else none) ++ [] = _
        rw [List.append_nil]
        apply filterMap_all_some
        intro i hi
        rw [if_pos (by rw [hsteps i (List.mem_range.mp hi)]; omega)]
      have hseq : (List.range migs.length).flatMap (fun i =>
          (List.range (((migs.map (fun m => m.upPolls))[i]?).getD 0)).map
            (fun r => (i, r)))
          = (List.range migs.length).map (fun i => (i, 0)) := by
        have hfg : ∀ i ∈ List.range migs.length,
            (List.range (((migs.map (fun m => m.upPolls))[i]?).getD 0)).map
              (fun r => (i, r)) = [(i, 0)] := by
          intro i hi
          rw [hsteps i (List.mem_range.mp hi)]
          rfl
        rw [bind_congr_fn hfg, bind_singleton_map]
      rw [hrow, hseq]
  · intro i r
    rw [runUpPollTrace, joinAllTrace]
    constructor
    · intro hmem
      rcases List.mem_flatMap.mp hmem with ⟨r', _, hmem2⟩
      rcases List.mem_filterMap.mp hmem2 with ⟨i', hi', heq⟩
      by_cases hlt : r' < ((migs.map (fun m => m.upPolls))[i']?).getD 0
      · rw [if_pos hlt] at heq
        have h1 : i' = i ∧ r' = r := by
          have := Option.some.inj heq
          exact ⟨congrArg Prod.fst this, congrArg Prod.snd this⟩
        rcases h1 with ⟨rfl, rfl⟩
        have := List.mem_range.mp hi'
        rw [List.length_map] at this
        exact ⟨this, hlt⟩
      · rw [if_neg hlt] at heq
        cases heq
    · rintro ⟨hi, hr⟩
      apply List.mem_flatMap.mpr
      refine ⟨r, List.mem_range.mpr ?_, ?_⟩
      · exact Nat.lt_of_lt_of_le hr (getD_le_foldr_max _ i)
      · apply List.mem_filterMap.mpr
        refine ⟨i, List.mem_range.mpr (by rw [List.length_map]; exact hi), ?_⟩
        rw [if_pos hr]
  · intro i j hij hj h2i h1j
    have hmax2 : 2 ≤ (migs.map (fun m => m.upPolls)).foldr max 0 :=
      Nat.le_trans h2i (getD_le_foldr_max _ i)
    obtain ⟨k, hk⟩ : ∃ k,
        (migs.map (fun m => m.upPolls)).foldr max 0 = k + 2 :=
      ⟨(migs.map (fun m => m.upPolls)).foldr max 0 - 2, by omega⟩
    obtain ⟨rest, hrest⟩ : ∃ rest, List.range (k + 2) = 0 :: 1 :: rest :=
      ⟨((List.range k).map Nat.succ).map Nat.succ, by
        rw [List.range_succ_eq_map, List.range_succ_eq_map, List.map_cons]⟩
    rw [runUpPollTrace, joinAllTrace, hk, hrest, List.flatMap_cons]
    apply mem_append_positions
    · exact List.mem_filterMap.mpr ⟨j,
        List.mem_range.mpr (by rw [List.length_map]; exact hj),
        by rw [if_pos (by omega)]⟩
    · apply List.mem_flatMap.mpr
      refine ⟨1, by simp, ?_⟩
      exact List.mem_filterMap.mpr ⟨i,
        List.mem_range.mpr (by rw [List.length_map]; omega),
        by rw [if_pos (by omega)]⟩

theorem c6_joinall_schedule_witness :
    ((∀ m ∈ declsAB, m.upPolls = 1)
      ∧ runUpPollTrace declsAB = seqUpPollTrace declsAB)
    ∧ ((1, 1) ∈ runUpPollTrace twoSlowUps
        ↔ 1 < twoSlowUps.length
          ∧ 1 < ((twoSlowUps.map (fun m => m.upPolls))[1]?).getD 0)
    ∧ (0 < 1 ∧ 1 < twoSlowUps.length
        ∧ 2 ≤ ((twoSlowUps.map (fun m => m.upPolls))[0]?).getD 0
        ∧ 1 ≤ ((twoSlowUps.map (fun m => m.upPolls))[1]?).getD 0)
    ∧ (∃ p q : Nat, p < q
        ∧ (runUpPollTrace twoSlowUps)[p]? = some (1, 0)
        ∧ (runUpPollTrace twoSlowUps)[q]? = some (0, 1)) :=
  ⟨⟨by decide, (c6_joinall_schedule declsAB).1 (by decide)⟩,
    (c6_joinall_schedule twoSlowUps).2.1 1 1,
    ⟨by decide, by decide, by decide, by decide⟩,
    (c6_joinall_schedule twoSlowUps).2.2 0 1 (by decide) (by decide)
      (by decide) (by decide)⟩

/-- C8: retrieve drops every record whose point id is missing, numeric,
or not a parseable UUID, and every record whose payload does not decode
into {name, applied_at}; such records change nothing in the result and
never make retrieve fail. -/
theorem c8_retrieve_drops_invalid (l1 l2 records : List ScrollRecord)
    (r : ScrollRecord)
    (hbad : r.id = none
      ∨ (∃ n, r.id = some (.Num n))
      ∨ (∃ s, r.id = some (.Uuid s) ∧ (uuidTryParse s).isOk = false)
      ∨ decodePayload r.payload = none) :
    ledgerRetrieve (l1 ++ r :: l2) = ledgerRetrieve (l1 ++ l2)
    ∧ (ledgerRetrieve records).isOk = true := by
  constructor
  · have hdec : recordDecode r = none := by
      rcases hbad with h | ⟨n, h⟩ | ⟨s, h, hp⟩ | h
      · rw [recordDecode, h]
        rfl
      · rw [recordDecode, h, Option.some_bind]
        rfl
      · rw [recordDecode, h, Option.some_bind]
        show ((uuidTryParse s).toOption.bind
          (fun uuid => (decodePayload r.payload).map
            (fun p => (p.1, uuid)))) = none
        rcases hu : uuidTryParse s with e | u
        · rfl
        · rw [hu] at hp
          cases hp
      · rcases hid : r.id with _ | pid
        · rw [recordDecode, hid]
          rfl
        · rw [recordDecode, hid, Option.some_bind]
          cases pid with
          | Num n => rfl
          | Uuid s =>
            show ((uuidTryParse s).toOption.bind
              (fun uuid => (decodePayload r.payload).map
                (fun p => (p.1, uuid)))) = none
            rcases hu : uuidTryParse s with e | u
            · rfl
            · simp [h]
    rw [ledgerRetrieve, ledgerRetrieve, List.filterMap_append,
      List.filterMap_append, List.filterMap_cons, hdec]
  · rw [ledgerRetrieve]
    rfl

theorem c8_retrieve_drops_invalid_witness :
    ledgerRetrieve [goodRecord, numRecord] = ledgerRetrieve [goodRecord]
    ∧ (ledgerRetrieve [goodRecord, numRecord]).isOk = true :=
  c8_retrieve_drops_invalid [goodRecord] [] [goodRecord, numRecord] numRecord
    (Or.inr (Or.inl ⟨7, rfl⟩))

/-- C10: `insert_resources` leaves the context untouched for every input:
the resource map is unchanged, lookups are unaffected, and a resource
type that was absent stays unretrievable — because the mapping iterator
is built but never consumed.  The last conjunct shows the contrast: a
consumed iterator would have made the last given resource retrievable. -/
theorem c10_insert_resources_noop (ctx : Context) (tid : Nat)
    (rs : List Nat) :
    ctx.insert_resources tid rs = ctx
    ∧ (ctx.insert_resources tid rs).resources.resourceOpt tid
        = ctx.resources.resourceOpt tid
    ∧ (ctx.resources.resourceOpt tid = none →
        (ctx.insert_resources tid rs).resources.resourceOpt tid = none)
    ∧ ∀ r, (ctx.resources.insertManyConsumed tid (rs ++ [r])).resourceOpt tid
        = some r := by
  refine ⟨rfl, rfl, fun h => h, ?_⟩
  intro r
  rw [ResourceMap.insertManyConsumed, List.foldl_append]
  show ((ctx.resources.insertManyConsumed tid rs).insert tid r).resourceOpt
    tid = some r
  rw [ResourceMap.insert, ResourceMap.resourceOpt]
  rw [List.find?_cons_of_pos _ (by simp)]
  rfl

theorem c10_insert_resources_noop_witness :
    ((⟨0, ⟨[]⟩⟩ : Context).resources.resourceOpt 1 = none
        → ((⟨0, ⟨[]⟩⟩ : Context).insert_resources 1 [5, 6]).resources.resourceOpt 1
            = none)
    ∧ ((⟨0, ⟨[]⟩⟩ : Context).insert_resources 1 [5, 6] = ⟨0, ⟨[]⟩⟩)
    ∧ ((⟨0, ⟨[]⟩⟩ : Context).resources.insertManyConsumed 1 ([5] ++ [6])).resourceOpt 1
        = some 6 :=
  ⟨(c10_insert_resources_noop ⟨0, ⟨[]⟩⟩ 1 [5, 6]).2.2.1,
    (c10_insert_resources_noop ⟨0, ⟨[]⟩⟩ 1 [5, 6]).1,
    (c10_insert_resources_noop ⟨0, ⟨[]⟩⟩ 1 [5]).2.2.2 6⟩

theorem filter_eq_singleton_of_unique {α} {l : List α} {p : α → Bool}
    {j : Nat} {a : α} (hj : l[j]? = some a) (hpa : p a = true)
    (huniq : ∀ (j' : Nat) (b : α), l[j']? = some b → p b = true → j' = j) :
    l.filter p = [a] := by
  induction l generalizing j with
  | nil => cases hj
  | cons x xs ih =>
    cases j with
    | zero =>
      have hxa : x = a := by
        rw [List.getElem?_cons_zero] at hj
        exact Option.some.inj hj
      subst hxa
      rw [List.filter_cons_of_pos hpa]
      have hnil : xs.filter p = [] := by
        rw [List.filter_eq_nil_iff]
        intro b hb hpb
        rcases List.mem_iff_getElem?.mp hb with ⟨i, hi⟩
        have := huniq (i + 1) b (by simpa using hi) hpb
        cases this
      rw [hnil]
    | succ j =>
      have hj' : xs[j]? = some a := by simpa using hj
      have hx : p x = false := by
        by_contra hpx
        have hpx' : p x = true := by
          cases hpxv : p x
          · exact absurd hpxv hpx
          · rfl
        have := huniq 0 x (by simp) hpx'
        cases this
      rw [List.filter_cons_of_neg (by rw [hx]; intro hc; cases hc)]
      exact ih hj' (fun j' b hb hpb => by
        have := huniq (j' + 1) b (by simpa using hb) hpb
        omega)

theorem lookupName_unique {l : List (String × Nat)} {nm : String} {j v : Nat}
    (hj : l[j]? = some (nm, v))
    (huniq : ∀ (j' : Nat) (e : String × Nat),
      l[j']? = some e → e.1 = nm → j' = j) :
    lookupName l nm = some v := by
  rw [lookupName,
    filter_eq_singleton_of_unique hj (by simp)
      (fun j' b hb hpb => huniq j' b hb (by simpa using hpb))]
  rfl

theorem ledgerFull_getElem (rs : List String) {q : Nat} (hq : q < rs.length) :
    (ledgerFull rs).entries[q]? = some (rget rs q, q) := by
  show (rs.enum.map (fun p => (p.2, p.1)))[q]? = _
  rw [List.getElem?_map, List.getElem?_enum, List.getElem?_eq_getElem hq]
  show some (rs[q], q) = some (rget rs q, q)
  rw [rget, List.getElem?_eq_getElem hq]
  rfl

theorem lookup_ledgerFull (rs : List String) (hnd : rs.Nodup) {q : Nat}
    (hq : q < rs.length) :
    lookupName (ledgerFull rs).entries (rget rs q) = some q := by
  apply lookupName_unique (ledgerFull_getElem rs hq)
  intro j' e hj' he
  have hj'lt : j' < rs.length := by
    have := getElem?_some_lt hj'
    simpa [ledgerFull] using this
  have he' : e = (rget rs j', j') := by
    have := ledgerFull_getElem rs hj'lt
    rw [this] at hj'
    exact (Option.some.inj hj').symm
  rw [he'] at he
  have hr : rget rs j' = rget rs q := he
  rw [rget, rget, List.getElem?_eq_getElem hj'lt,
    List.getElem?_eq_getElem hq] at hr
  exact (List.Nodup.getElem_inj_iff hnd).mp hr

theorem withStatus_chain_getElem (rs : List String) (led : LedgerState)
    {j : Nat} (hj : j < rs.length) :
    (migrationsWithStatus (chainDecls rs) led)[j]? = some
      { runner := { name := rget rs j
                    revision := rget rs j
                    down_revision :=
                      if j = 0 then none else some (rget rs (j - 1)) }
        id := lookupName led.entries (rget rs j)
        status := if (lookupName led.entries (rget rs j)).isSome
                  then .Applied else .Pending } := by
  rw [migrationsWithStatus, chainDecls, List.getElem?_map, List.getElem?_map,
    List.getElem?_range hj]
  rfl

theorem chainPerm_withStatus (rs : List String) (hnd : rs.Nodup)
    (led : LedgerState) :
    ChainPerm rs (fun q => q) (fun q => q)
      (migrationsWithStatus (chainDecls rs) led) := by
  refine ⟨?_, ?_, ?_, ?_, ?_, ?_, ?_, hnd⟩
  · simp [migrationsWithStatus, chainDecls]
  · intro j hj
    rw [migAt, withStatus_chain_getElem rs led hj]
    rfl
  · intro j hj
    rw [migAt, withStatus_chain_getElem rs led hj]
    rfl
  · intro j hj; exact hj
  · intro q hq; exact hq
  · intro q _; rfl
  · intro j _; rfl

theorem filter_applied_full (rs : List String) (hnd : rs.Nodup) :
    (migrationsWithStatus (chainDecls rs) (ledgerFull rs)).filter
        (fun m => m.status == MigrationStatus.Applied)
      = migrationsWithStatus (chainDecls rs) (ledgerFull rs) := by
  apply List.filter_eq_self.mpr
  intro m hm
  rcases List.mem_iff_getElem?.mp hm with ⟨j, hj⟩
  have hjlt : j < rs.length := by
    have := getElem?_some_lt hj
    simpa [migrationsWithStatus, chainDecls] using this
  rw [withStatus_chain_getElem rs (ledgerFull rs) hjlt] at hj
  have hm' := (Option.some.inj hj).symm
  rw [hm']
  show (if (lookupName (ledgerFull rs).entries (rget rs j)).isSome
    then MigrationStatus.Applied else MigrationStatus.Pending)
      == MigrationStatus.Applied
  rw [lookup_ledgerFull rs hnd hjlt]
  rfl

theorem filter_pending_empty_entries (rs : List String) (led : LedgerState)
    (hled : led.entries = []) :
    (migrationsWithStatus (chainDecls rs) led).filter
        (fun m => m.status == MigrationStatus.Pending)
      = migrationsWithStatus (chainDecls rs) led := by
  apply List.filter_eq_self.mpr
  intro m hm
  rcases List.mem_iff_getElem?.mp hm with ⟨j, hj⟩
  have hjlt : j < rs.length := by
    have := getElem?_some_lt hj
    simpa [migrationsWithStatus, chainDecls] using this
  rw [withStatus_chain_getElem rs led hjlt] at hj
  have hm' := (Option.some.inj hj).symm
  rw [hm']
  show (if (lookupName led.entries (rget rs j)).isSome
    then MigrationStatus.Applied else MigrationStatus.Pending)
      == MigrationStatus.Pending
  rw [hled]
  rfl

theorem sequenceE_map_ok {ε α β} {l : List α} {f : α → Except ε β}
    {g : α → β} (h : ∀ a ∈ l, f a = .ok (g a)) :
    sequenceE (l.map f) = .ok (l.map g) := by
  induction l with
  | nil => rfl
  | cons a l ih =>
    rw [List.map_cons, sequenceE, h a (by simp)]
    show (sequenceE (l.map f)).map (fun bl => g a :: bl) = _
    rw [ih (fun x hx => h x (by simp [hx]))]
    rfl

theorem runDownEntry_chain {migs : List Migration} {i v : Nat}
    (hid : (migAt migs i).id = some v)
    (hok : (migAt migs i).runner.downOk = true) :
    runDownEntry ((migAt migs i).id, (migAt migs i).runner) = .ok v := by
  show ((migAt migs i).id).elim
    (Except.error (MigErr.notFound (migAt migs i).runner.name))
    (fun id => if (migAt migs i).runner.downOk = true then Except.ok id
               else Except.error (MigErr.userDown (migAt migs i).runner.name))
      = Except.ok v
  rw [hid, Option.elim_some, if_pos hok]

namespace ChainPerm

variable {rs : List String} {π σ : Nat → Nat} {migs : List Migration}

theorem queueRev_eq (c : ChainPerm rs π σ migs) (hne : rs ≠ [])
    {g : RevisionGraph} (hg : g.nodes = linkedNodes migs) :
    g.queueRev = some (rget rs (π 0)) := by
  have hn : 0 < rs.length := List.length_pos.mpr hne
  have h0 : 0 < migs.length := by rw [c.len]; omega
  rw [RevisionGraph.queueRev, hg, linkedNodes_getElem? migs h0,
    Option.map_some', c.node_revision hn]

theorem headRev_eq (c : ChainPerm rs π σ migs) (hne : rs ≠ [])
    {g : RevisionGraph} (hg : g.nodes = linkedNodes migs)
    (hhix : g.head_ix = σ (rs.length - 1)) :
    g.headRev = some (rget rs (rs.length - 1)) := by
  have hn : 0 < rs.length := List.length_pos.mpr hne
  have hσm : σ (rs.length - 1) < migs.length := by
    rw [c.len]
    exact c.σlt _ (by omega)
  rw [RevisionGraph.headRev, hg, hhix, linkedNodes_getElem? migs hσm,
    Option.map_some', c.node_revision (c.σlt _ (by omega)),
    c.πσ _ (by omega)]

theorem graph_get (c : ChainPerm rs π σ migs) {g : RevisionGraph}
    (hg : g.nodes = linkedNodes migs) {q : Nat} (hq : q < rs.length) :
    g.get (rget rs q)
      = some ((migAt migs (σ q)).id, (migAt migs (σ q)).runner) := by
  have hσm : σ q < migs.length := by rw [c.len]; exact c.σlt q hq
  rw [RevisionGraph.get, c.graph_ix hg hq, Option.some_bind,
    hg, linkedNodes_getElem? migs hσm, Option.map_some']
  rfl

theorem runUpEntry_chain (c : ChainPerm rs π σ migs) {g : RevisionGraph}
    (hg : g.nodes = linkedNodes migs) {i : Nat} (hi : i < rs.length)
    (hok : (migAt migs i).runner.upOk = true) :
    runUpEntry g (nodeAt migs migs.length i)
      = .ok (migAt migs i).runner.name := by
  rw [runUpEntry, c.node_revision hi, c.graph_get hg (c.πlt i hi),
    c.σπ i hi, Option.elim_some]
  show (if (migAt migs i).runner.upOk = true
    then Except.ok (migAt migs i).runner.name
    else Except.error (MigErr.userUp (migAt migs i).runner.name)) = _
  rw [if_pos hok]

end ChainPerm

theorem downIxs_lt (rs : List String) (hn : 0 < rs.length) :
    ∀ i ∈ downIxs rs, i < rs.length := by
  intro i hi
  rcases List.mem_map.mp hi with ⟨t, _, rfl⟩
  omega

theorem mem_downIxs (rs : List String) {q : Nat} (hq : q < rs.length) :
    q ∈ downIxs rs := by
  apply List.mem_map.mpr
  exact ⟨rs.length - 1 - q, List.mem_range.mpr (by omega), by omega⟩

theorem migAt_full (rs : List String) (hnd : rs.Nodup) {i : Nat}
    (hi : i < rs.length) :
    migAt (migrationsWithStatus (chainDecls rs) (ledgerFull rs)) i
      = { runner := { name := rget rs i
                      revision := rget rs i
                      down_revision :=
                        if i = 0 then none else some (rget rs (i - 1)) }
          id := some i
          status := .Applied } := by
  rw [migAt, withStatus_chain_getElem rs (ledgerFull rs) hi,
    lookup_ledgerFull rs hnd hi]
  rfl

theorem execDown_full_eval (rs : List String) (hne : rs ≠ [])
    (hnd : rs.Nodup) :
    execDown (chainDecls rs) none ⟨none, ledgerFull rs⟩
      = ⟨.ok (),
          ⟨some ⟨linkedNodes
              (migrationsWithStatus (chainDecls rs) (ledgerFull rs)),
              rs.length - 1⟩,
            ⟨[], rs.length⟩⟩,
          [.deleteMany (downIxs rs)]⟩ := by
  have hn : 0 < rs.length := List.length_pos.mpr hne
  have cD : ChainPerm rs (fun q => q) (fun q => q)
      (migrationsWithStatus (chainDecls rs) (ledgerFull rs)) :=
    chainPerm_withStatus rs hnd (ledgerFull rs)
  have hTF : tryFrom (migrationsWithStatus (chainDecls rs) (ledgerFull rs))
      = Except.ok ⟨linkedNodes
          (migrationsWithStatus (chainDecls rs) (ledgerFull rs)),
          rs.length - 1⟩ :=
    cD.tryFrom_eq hne
  have hGI : getOrInitGraph none
      ((migrationsWithStatus (chainDecls rs) (ledgerFull rs)).filter
        (fun m => m.status == MigrationStatus.Applied))
      = Except.ok
          (⟨linkedNodes
              (migrationsWithStatus (chainDecls rs) (ledgerFull rs)),
              rs.length - 1⟩,
           some ⟨linkedNodes
              (migrationsWithStatus (chainDecls rs) (ledgerFull rs)),
              rs.length - 1⟩) := by
    rw [filter_applied_full rs hnd]
    show (tryFrom
      (migrationsWithStatus (chainDecls rs) (ledgerFull rs))).map
        (fun g => (g, some g)) = _
    rw [hTF]
    rfl
  have hHead : RevisionGraph.headRev ⟨linkedNodes
      (migrationsWithStatus (chainDecls rs) (ledgerFull rs)),
      rs.length - 1⟩ = some (rget rs (rs.length - 1)) :=
    cD.headRev_eq hne rfl rfl
  have hBP : RevisionGraph.backward_path ⟨linkedNodes
      (migrationsWithStatus (chainDecls rs) (ledgerFull rs)),
      rs.length - 1⟩ (some (rget rs (rs.length - 1))) none
      = some ((downIxs rs).map (fun i => nodeAt
          (migrationsWithStatus (chainDecls rs) (ledgerFull rs))
          (migrationsWithStatus (chainDecls rs) (ledgerFull rs)).length i)) :=
    cD.backward_path_nodes hne rfl
  have hFM : ((downIxs rs).map (fun i => nodeAt
        (migrationsWithStatus (chainDecls rs) (ledgerFull rs))
        (migrationsWithStatus (chainDecls rs) (ledgerFull rs)).length
          i)).filterMap
      (fun n => RevisionGraph.get ⟨linkedNodes
          (migrationsWithStatus (chainDecls rs) (ledgerFull rs)),
          rs.length - 1⟩ n.revision)
      = (downIxs rs).map (fun i =>
          ((migAt (migrationsWithStatus (chainDecls rs) (ledgerFull rs))
              i).id,
           (migAt (migrationsWithStatus (chainDecls rs) (ledgerFull rs))
              i).runner)) := by
    rw [List.filterMap_map]
    apply filterMap_all_some
    intro i hi
    have hilt : i < rs.length := downIxs_lt rs hn i hi
    show RevisionGraph.get _ (nodeAt _ _ i).revision = _
    rw [cD.node_revision hilt, cD.graph_get rfl (cD.πlt i hilt),
      cD.σπ i hilt]
  have hSE : sequenceE (((downIxs rs).map (fun i =>
        ((migAt (migrationsWithStatus (chainDecls rs) (ledgerFull rs))
            i).id,
         (migAt (migrationsWithStatus (chainDecls rs) (ledgerFull rs))
            i).runner))).map runDownEntry)
      = Except.ok (downIxs rs) := by
    rw [List.map_map]
    have h : sequenceE ((downIxs rs).map (runDownEntry ∘ (fun i =>
        ((migAt (migrationsWithStatus (chainDecls rs) (ledgerFull rs))
            i).id,
         (migAt (migrationsWithStatus (chainDecls rs) (ledgerFull rs))
            i).runner))))
        = Except.ok ((downIxs rs).map (fun i => i)) := by
      apply sequenceE_map_ok
      intro i hi
      have hilt : i < rs.length := downIxs_lt rs hn i hi
      show runDownEntry
        ((migAt (migrationsWithStatus (chainDecls rs) (ledgerFull rs))
            i).id,
         (migAt (migrationsWithStatus (chainDecls rs) (ledgerFull rs))
            i).runner) = Except.ok i
      apply runDownEntry_chain
      · rw [migAt_full rs hnd hilt]
      · rw [migAt_full rs hnd hilt]
    rw [h, List.map_id']
  have hNE : ¬ ((downIxs rs).isEmpty = true) := by
    have hl : (downIxs rs).length = rs.length := by
      rw [downIxs, List.length_map, List.length_range]
    rw [List.isEmpty_iff]
    intro hc
    rw [hc] at hl
    simp at hl
    omega
  have hDel : (ledgerFull rs).deleteMany (downIxs rs)
      = ⟨[], rs.length⟩ := by
    rw [LedgerState.deleteMany]
    have hent : (ledgerFull rs).entries.filter
        (fun e => decide (¬ e.2 ∈ downIxs rs)) = [] := by
      rw [List.filter_eq_nil_iff]
      intro e he
      rcases List.mem_iff_getElem?.mp he with ⟨j, hj⟩
      have hjlt : j < rs.length := by
        have := getElem?_some_lt hj
        simpa [ledgerFull] using this
      rw [ledgerFull_getElem rs hjlt] at hj
      have he' : e = (rget rs j, j) := (Option.some.inj hj).symm
      rw [he']
      simp [mem_downIxs rs hjlt]
    rw [hent]
    rfl
  unfold execDown
  dsimp only
  rw [hGI, exceptElim_ok]
  dsimp only
  rw [hHead, Option.elim_some]
  rw [hBP, Option.elim_some]
  rw [hFM, hSE, exceptElim_ok]
  rw [if_neg hNE, hDel]

theorem execUp_chain_eval (rs : List String) (hne : rs ≠ [])
    (hnd : rs.Nodup) (led led0 : LedgerState) (cell : Option RevisionGraph)
    (hGI : getOrInitGraph cell
        ((migrationsWithStatus (chainDecls rs) led0).filter
          (fun m => m.status == MigrationStatus.Pending))
      = Except.ok
          (⟨linkedNodes (migrationsWithStatus (chainDecls rs) led),
              rs.length - 1⟩,
           some ⟨linkedNodes (migrationsWithStatus (chainDecls rs) led),
              rs.length - 1⟩)) :
    execUp (chainDecls rs) none none ⟨cell, led0⟩
      = ⟨.ok (),
          ⟨some ⟨linkedNodes (migrationsWithStatus (chainDecls rs) led),
              rs.length - 1⟩,
            led0.insertMany rs⟩,
          [.insertMany rs]⟩ := by
  have cP : ChainPerm rs (fun q => q) (fun q => q)
      (migrationsWithStatus (chainDecls rs) led) :=
    chainPerm_withStatus rs hnd led
  have hQ : RevisionGraph.queueRev
      ⟨linkedNodes (migrationsWithStatus (chainDecls rs) led),
        rs.length - 1⟩ = some (rget rs 0) :=
    cP.queueRev_eq hne rfl
  have hH : RevisionGraph.headRev
      ⟨linkedNodes (migrationsWithStatus (chainDecls rs) led),
        rs.length - 1⟩ = some (rget rs (rs.length - 1)) :=
    cP.headRev_eq hne rfl rfl
  have hFP : RevisionGraph.forward_path
      ⟨linkedNodes (migrationsWithStatus (chainDecls rs) led),
        rs.length - 1⟩ (some (rget rs 0)) (rget rs (rs.length - 1))
      = some ((List.range rs.length).map (fun i =>
          nodeAt (migrationsWithStatus (chainDecls rs) led)
            (migrationsWithStatus (chainDecls rs) led).length i)) := by
    have h : RevisionGraph.forward_path
        ⟨linkedNodes (migrationsWithStatus (chainDecls rs) led),
          rs.length - 1⟩ (some (rget rs 0)) (rget rs (rs.length - 1))
        = some (((List.range rs.length).map (fun q => q)).map (fun i =>
            nodeAt (migrationsWithStatus (chainDecls rs) led)
              (migrationsWithStatus (chainDecls rs) led).length i)) :=
      cP.forward_path_nodes hne rfl
    rw [List.map_id'] at h
    exact h
  have hSEup : sequenceE (((List.range rs.length).map (fun i =>
        nodeAt (migrationsWithStatus (chainDecls rs) led)
          (migrationsWithStatus (chainDecls rs) led).length i)).map
        (runUpEntry
          ⟨linkedNodes (migrationsWithStatus (chainDecls rs) led),
            rs.length - 1⟩))
      = Except.ok rs := by
    rw [List.map_map]
    have h : sequenceE ((List.range rs.length).map
        ((runUpEntry
            ⟨linkedNodes (migrationsWithStatus (chainDecls rs) led),
              rs.length - 1⟩) ∘ (fun i =>
          nodeAt (migrationsWithStatus (chainDecls rs) led)
            (migrationsWithStatus (chainDecls rs) led).length i)))
        = Except.ok ((List.range rs.length).map (fun i => rget rs i)) := by
      apply sequenceE_map_ok
      intro i hi
      have hilt : i < rs.length := List.mem_range.mp hi
      have hok : (migAt (migrationsWithStatus (chainDecls rs) led)
          i).runner.upOk = true := by
        rw [migAt, withStatus_chain_getElem rs led hilt]
        rfl
      show runUpEntry _
        (nodeAt (migrationsWithStatus (chainDecls rs) led)
          (migrationsWithStatus (chainDecls rs) led).length i)
          = Except.ok (rget rs i)
      rw [cP.runUpEntry_chain rfl hilt hok, migAt,
        withStatus_chain_getElem rs led hilt]
      rfl
    rw [h, range_map_rget]
  have hNE : ¬ (rs.isEmpty = true) := by
    rw [List.isEmpty_iff]
    exact hne
  unfold execUp
  dsimp only
  rw [hGI, exceptElim_ok]
  dsimp only
  rw [hQ, Option.some_bind, hH, Option.map_some', Option.elim_some]
  simp only [Option.getD_none]
  rw [hFP, Option.elim_some]
  rw [hSEup, exceptElim_ok]
  rw [if_neg hNE]

theorem insertMany_empty_names (rs : List String) (next : Nat) :
    ((⟨[], next⟩ : LedgerState).insertMany rs).entries.map (fun e => e.1)
      = rs := by
  show ([] ++ rs.enum.map
      (fun p : Nat × String => (p.2, next + p.1))).map
      (fun e : String × Nat => e.1) = rs
  rw [List.nil_append, List.map_map]
  have hc : ∀ p ∈ rs.enum,
      ((fun e : String × Nat => e.1)
        ∘ (fun p : Nat × String => (p.2, next + p.1))) p = Prod.snd p :=
    fun p _ => rfl
  rw [List.map_congr_left hc, List.enum_map_snd]

theorem refreshRun_full_eval (rs : List String) (hne : rs ≠ [])
    (hnd : rs.Nodup) :
    refreshRun (chainDecls rs) ⟨none, ledgerFull rs⟩
      = ⟨.ok (),
          ⟨some ⟨linkedNodes
              (migrationsWithStatus (chainDecls rs) (ledgerFull rs)),
              rs.length - 1⟩,
            (⟨[], rs.length⟩ : LedgerState).insertMany rs⟩,
          [.deleteMany (downIxs rs), .insertMany rs]⟩ := by
  have hD := execDown_full_eval rs hne hnd
  have hU := execUp_chain_eval rs hne hnd (ledgerFull rs) ⟨[], rs.length⟩
    (some ⟨linkedNodes
        (migrationsWithStatus (chainDecls rs) (ledgerFull rs)),
        rs.length - 1⟩) rfl
  unfold refreshRun
  rw [hD]
  dsimp only
  rw [exceptElim_ok]
  rw [hU]
  rfl

theorem freshUp_chain_eval (rs : List String) (hne : rs ≠ [])
    (hnd : rs.Nodup) :
    freshUpRun (chainDecls rs)
      = ⟨.ok (),
          ⟨some ⟨linkedNodes
              (migrationsWithStatus (chainDecls rs) ⟨[], 0⟩),
              rs.length - 1⟩,
            (⟨[], 0⟩ : LedgerState).insertMany rs⟩,
          [.insertMany rs]⟩ := by
  have cE : ChainPerm rs (fun q => q) (fun q => q)
      (migrationsWithStatus (chainDecls rs) ⟨[], 0⟩) :=
    chainPerm_withStatus rs hnd ⟨[], 0⟩
  have hGI : getOrInitGraph none
      ((migrationsWithStatus (chainDecls rs) ⟨[], 0⟩).filter
        (fun m => m.status == MigrationStatus.Pending))
      = Except.ok
          (⟨linkedNodes (migrationsWithStatus (chainDecls rs) ⟨[], 0⟩),
              rs.length - 1⟩,
           some ⟨linkedNodes (migrationsWithStatus (chainDecls rs) ⟨[], 0⟩),
              rs.length - 1⟩) := by
    rw [filter_pending_empty_entries rs ⟨[], 0⟩ rfl]
    show (tryFrom
      (migrationsWithStatus (chainDecls rs) ⟨[], 0⟩)).map
        (fun g => (g, some g)) = _
    rw [cE.tryFrom_eq hne]
    rfl
  show execUp (chainDecls rs) none none ⟨none, ⟨[], 0⟩⟩ = _
  exact execUp_chain_eval rs hne hnd ⟨[], 0⟩ ⟨[], 0⟩ none hGI

/-- C3 (amended): when every migration of the declared chain is recorded
as applied in the ledger, `refresh()` (the Down-then-Up composition over
the full range) leaves exactly the chain's name-set in the ledger, the
same name-set a fresh `up()` against an empty ledger produces; both runs
succeed. (The unconditional claim — any ledger state — is refuted by the
memoized-graph counterexample.) -/
theorem c3_refresh_full_applied (rs : List String) (hne : rs ≠ [])
    (hnd : rs.Nodup) :
    (refreshRun (chainDecls rs) ⟨none, ledgerFull rs⟩).result = .ok ()
      ∧ appliedNames
          (refreshRun (chainDecls rs) ⟨none, ledgerFull rs⟩).state = rs
      ∧ (freshUpRun (chainDecls rs)).result = .ok ()
      ∧ appliedNames (freshUpRun (chainDecls rs)).state = rs := by
  refine ⟨?_, ?_, ?_, ?_⟩
  · rw [refreshRun_full_eval rs hne hnd]
  · rw [appliedNames, refreshRun_full_eval rs hne hnd]
    exact insertMany_empty_names rs rs.length
  · rw [freshUp_chain_eval rs hne hnd]
  · rw [appliedNames, freshUp_chain_eval rs hne hnd]
    exact insertMany_empty_names rs 0

/-- Instance of the amended C3 property on the concrete two-migration
chain a, b with both recorded as applied. -/
theorem c3_refresh_full_applied_witness :
    (["a", "b"] : List String) ≠ []
      ∧ (["a", "b"] : List String).Nodup
      ∧ ((refreshRun (chainDecls ["a", "b"])
            ⟨none, ledgerFull ["a", "b"]⟩).result = .ok ()
          ∧ appliedNames
              (refreshRun (chainDecls ["a", "b"])
                ⟨none, ledgerFull ["a", "b"]⟩).state = ["a", "b"]
          ∧ (freshUpRun (chainDecls ["a", "b"])).result = .ok ()
          ∧ appliedNames (freshUpRun (chainDecls ["a", "b"])).state
              = ["a", "b"]) :=
  ⟨by decide, by decide,
    c3_refresh_full_applied ["a", "b"] (by decide) (by decide)⟩


end Vectorctl
